import Mathlib

/-!
# CMSat `vec<T>` (src/src/Vec.h, the non-folly branch)

A shallow embedding of the growable buffer of CryptoMiniSat and of its
capacity planner `vec<T>::capacity(int32_t)`.

* `uint32_t` values are natural numbers below `2^32`; `int32_t` values are
  integers in `[-2^31, 2^31)`.  Every arithmetic step of the source is followed
  by the reduction of its C++ type (`toInt32` / `toUInt32`), i.e. two's-complement
  wrap-around.
* The storage block `data` is `none` for `NULL` and otherwise a list of slots;
  a slot is `none` while it holds no constructed object.
* Operations return an `Outcome`: normal return, a thrown `std::bad_alloc`
  (carrying the state the object was left in), an access outside the storage
  block or a failed `assert`, or exhaustion of the loop fuel.
-/

namespace CMSat

/-! ## 32-bit machine integers -/

/-- Conversion to `int32_t`: reduction modulo `2^32` into `[-2^31, 2^31)`. -/
def toInt32 (n : Int) : Int := (n + 2147483648) % 4294967296 - 2147483648

/-- Conversion to `uint32_t`: reduction modulo `2^32` into `[0, 2^32)`. -/
def toUInt32 (n : Int) : Nat := (n % 4294967296).toNat

/-- Bitwise and of two `int32_t` values (`x & y`): the and of their 32-bit
two's-complement patterns, read back as `int32_t`. -/
def and32 (x y : Int) : Int := toInt32 (Nat.land (toUInt32 x) (toUInt32 y))

/-- Bitwise complement of an `int32_t` value (`~x`). -/
def not32 (x : Int) : Int := ~~~x

/-- Arithmetic right shift of an `int32_t` value (`x >> k`). -/
def sar32 (x : Int) (k : Nat) : Int := x >>> k

/-- Source: `vec<T>::imax(int32_t x, int32_t y)`, Vec.h lines 192-196.
`mask = (y - x) >> 31; return (x & mask) + (y & ~mask);` with result type
`uint32_t`. -/
def imax (x y : Int) : Nat :=
  let mask := sar32 (toInt32 (y - x)) 31
  toUInt32 (toInt32 (and32 x mask + and32 y (not32 mask)))

/-! ## Outcomes, allocator, storage -/

/-- What a call of the allocator `realloc` answers. -/
inductive AllocReply where
  /-- a block of the requested size -/
  | block
  /-- the answer `NULL`, with `errno == ENOMEM` -/
  | nullENOMEM
  /-- the answer `NULL`, with `errno` different from `ENOMEM` -/
  | nullOther
  deriving DecidableEq, Repr

/-- The environment of a call: the allocator's answer to a request for `n`
slots, and the number of loop iterations the planner's search may take. -/
structure Env where
  /-- answer of `realloc` to a request for the given number of slots -/
  heap : Nat → AllocReply
  /-- iterations granted to `while (new_size < cap) new_size *= 2` -/
  fuel : Nat

/-- The allocator never fails. -/
def Env.allocOk (env : Env) : Prop := ∀ n, env.heap n = AllocReply.block

/-- Result of running an operation on a state of type `σ`. -/
inductive Outcome (σ : Type) where
  /-- the operation returned normally, leaving state `s` -/
  | ok (s : σ)
  /-- the operation threw `std::bad_alloc`, leaving state `s` -/
  | badAlloc (s : σ)
  /-- a failed `assert`, or a load or store outside the storage block -/
  | undefined
  /-- the loop fuel ran out -/
  | timeout
  deriving DecidableEq, Repr

/-- Sequencing: the second operation runs only after a normal return; an
exception propagates with the state it left. -/
def Outcome.bind {σ : Type} (o : Outcome σ) (f : σ → Outcome σ) : Outcome σ :=
  match o with
  | .ok s => f s
  | .badAlloc s => .badAlloc s
  | .undefined => .undefined
  | .timeout => .timeout

/-- Transport of the state carried by an outcome. -/
def Outcome.map {σ τ : Type} (f : σ → τ) (o : Outcome σ) : Outcome τ :=
  match o with
  | .ok s => .ok (f s)
  | .badAlloc s => .badAlloc (f s)
  | .undefined => .undefined
  | .timeout => .timeout

/-- A storage block: one entry per allocated slot, `none` for a slot that
holds no constructed object. -/
abbrev Block (α : Type) := List (Option α)

/-- Source: `template<class T> class vec`, Vec.h lines 155-178: the fields
`data`, `sz`, `cap`. -/
structure vec (α : Type) where
  /-- the field `T* data`; `none` is `NULL` -/
  data : Option (Block α)
  /-- the field `uint32_t sz` -/
  sz : Nat
  /-- the field `uint32_t cap` -/
  cap : Nat
  deriving DecidableEq, Repr

namespace vec

variable {α : Type}

/-- Source: `vec()`, Vec.h line 200: `data(NULL), sz(0), cap(0)`. -/
def empty : vec α := { data := none, sz := 0, cap := 0 }

/-- Source: `size()`, Vec.h lines 207-210. -/
def size (v : vec α) : Nat := v.sz

/-- Source: `capacity() const`, Vec.h lines 225-228 (the getter; the name
`capacity` is kept for the planner `capacity(int32_t)`). -/
def getCapacity (v : vec α) : Nat := v.cap

/-- The allocator call `realloc(data, n * sizeof(T))` when it succeeds: a block
of `n` slots whose first `min(old length, n)` slots are those of the old block
and whose other slots hold no object. -/
def reallocBlock (old : Option (Block α)) (n : Nat) : Block α :=
  (old.getD []).take n ++ List.replicate (n - (old.getD []).length) none

/-- A store (or placement construction, or destruction) at `data[i]`: `x` is the
new content of the slot.  Outside the block, or through `NULL`, it is undefined. -/
def storeAt (v : vec α) (i : Nat) (x : Option α) : Outcome (vec α) :=
  match v.data with
  | none => .undefined
  | some blk =>
    if i < blk.length then .ok { v with data := some (blk.set i x) } else .undefined

/-- A load of `data[i]`: `none` outside the block, through `NULL`, or from a
slot holding no constructed object. -/
def loadAt (v : vec α) (i : Nat) : Option α :=
  match v.data with
  | none => none
  | some blk => (blk.get? i).join

/-- Source: `operator [] (uint32_t index)`, Vec.h lines 276-283. -/
def index (v : vec α) (i : Nat) : Option α := loadAt v i

/-- The slots `[0, sz)` of the buffer, in order. -/
def elems (v : vec α) : List (Option α) := (v.data.getD []).take v.sz

/-- Source: Vec.h lines 370-373, `while (new_size < cap) new_size *= 2;` on
`uint32_t`, one unit of fuel per evaluation of the loop condition. -/
def pow2Loop : Nat → Nat → Nat → Option Nat
  | 0, _, _ => none
  | fuel + 1, new_size, cap =>
    if new_size < cap then pow2Loop fuel (new_size * 2 % 4294967296) cap else some new_size

/-- Source: Vec.h lines 374-376,
`if (new_size * 2 / 3 > cap) new_size = new_size * 2 / 3;` on `uint32_t`. -/
def dewaste (new_size cap : Nat) : Nat :=
  if new_size * 2 % 4294967296 / 3 > cap then new_size * 2 % 4294967296 / 3 else new_size

/-- Source: Vec.h line 363, the increment
`imax((min_cap - (int32_t)cap + 1) & ~1, (((int32_t)cap >> 1) + 2) & ~1)`. -/
def growthAdd (cap : Nat) (min_cap : Int) : Nat :=
  imax (and32 (toInt32 (toInt32 (min_cap - toInt32 cap) + 1)) (not32 1))
       (and32 (toInt32 (sar32 (toInt32 cap) 1 + 2)) (not32 1))

/-- Source: `vec<T>::capacity(int32_t min_cap)`, Vec.h lines 355-382. -/
def capacity (env : Env) (v : vec α) (min_cap : Int) : Outcome (vec α) :=
  if toInt32 v.cap ≥ min_cap then .ok v
  else
    let add := growthAdd v.cap min_cap
    if add > 4294967295 - v.cap then .badAlloc v
    else
      let cap1 := (v.cap + add) % 4294967296
      match pow2Loop env.fuel 2 cap1 with
      | none => .timeout
      | some new_size =>
        let cap2 := dewaste new_size cap1
        match env.heap cap2 with
        | .block => .ok { data := some (reallocBlock v.data cap2), sz := v.sz, cap := cap2 }
        | .nullENOMEM => .badAlloc { data := none, sz := v.sz, cap := cap2 }
        | .nullOther => .ok { data := none, sz := v.sz, cap := cap2 }

/-- A counted run of stores of `x` into the slots `i, i+1, ...`: the body of the
`for` loops of `growTo` and `clear`. -/
def fillLoop (x : Option α) : Nat → Nat → vec α → Outcome (vec α)
  | 0, _, v => .ok v
  | k + 1, i, v => (storeAt v i x).bind (fillLoop x k (i + 1))

/-- Source: `vec<T>::growTo(uint32_t size, const T& pad)`, Vec.h lines 385-397. -/
def growToPad (env : Env) (v : vec α) (size : Nat) (pad : α) : Outcome (vec α) :=
  if v.sz ≥ size then .ok v
  else
    ((capacity env v (toInt32 size)).bind (fillLoop (some pad) (size - v.sz) v.sz)).bind
      fun w => .ok { w with sz := size }

/-- Source: `vec<T>::growTo(uint32_t size)`, Vec.h lines 400-412. -/
def growTo [Inhabited α] (env : Env) (v : vec α) (size : Nat) : Outcome (vec α) :=
  if v.sz ≥ size then .ok v
  else
    ((capacity env v (toInt32 size)).bind (fillLoop (some default) (size - v.sz) v.sz)).bind
      fun w => .ok { w with sz := size }

/-- Source: `vec<T>::clear(bool dealloc)`, Vec.h lines 415-428. -/
def clear (v : vec α) (dealloc : Bool) : Outcome (vec α) :=
  match v.data with
  | none => .ok v
  | some _ =>
    (fillLoop none v.sz 0 v).bind fun w =>
      if dealloc then .ok { data := none, sz := 0, cap := 0 } else .ok { w with sz := 0 }

/-- Source: `vec<Watched>::clear(bool dealloc)`, Vec.h lines 430-440. -/
def clearWatched (v : vec α) (dealloc : Bool) : Outcome (vec α) :=
  match v.data with
  | none => .ok v
  | some _ =>
    if dealloc then .ok { data := none, sz := 0, cap := 0 } else .ok { v with sz := 0 }

/-- Source: `push()`, Vec.h lines 235-242. -/
def pushDefault [Inhabited α] (env : Env) (v : vec α) : Outcome (vec α) :=
  ((if v.sz = v.cap then capacity env v (toInt32 (toUInt32 (v.sz + 1))) else .ok v).bind
    fun w => storeAt w w.sz (some default)).bind
    fun w => .ok { w with sz := toUInt32 (w.sz + 1) }

/-- Source: `push(const T& elem)`, Vec.h lines 243-250. -/
def push (env : Env) (v : vec α) (elem : α) : Outcome (vec α) :=
  ((if v.sz = v.cap then capacity env v (toInt32 (toUInt32 (v.sz + 1))) else .ok v).bind
    fun w => storeAt w w.sz (some elem)).bind
    fun w => .ok { w with sz := toUInt32 (w.sz + 1) }

/-- Source: `push_(const T& elem)`, Vec.h lines 251-255. -/
def push_ (v : vec α) (elem : α) : Outcome (vec α) :=
  if v.sz < v.cap then
    (storeAt v v.sz (some elem)).bind fun w => .ok { w with sz := toUInt32 (w.sz + 1) }
  else .undefined

/-- Source: `pop()`, Vec.h lines 256-260. -/
def pop (v : vec α) : Outcome (vec α) :=
  if v.sz > 0 then storeAt { v with sz := v.sz - 1 } (v.sz - 1) none else .undefined

/-- The loop of `shrink`: `nelems` times `sz--, data[sz].~T()`. -/
def shrinkLoop : Nat → vec α → Outcome (vec α)
  | 0, v => .ok v
  | k + 1, v => (storeAt { v with sz := v.sz - 1 } (v.sz - 1) none).bind (shrinkLoop k)

/-- Source: `shrink(uint32_t nelems)`, Vec.h lines 211-218. -/
def shrink (v : vec α) (nelems : Nat) : Outcome (vec α) :=
  if nelems ≤ v.sz then shrinkLoop nelems v else .undefined

/-- Source: `shrink_(uint32_t nelems)`, Vec.h lines 219-224. -/
def shrink_ (v : vec α) (nelems : Nat) : Outcome (vec α) :=
  if nelems ≤ v.sz then .ok { v with sz := v.sz - nelems } else .undefined

/-- The loop of `copyTo`: `copy[i] = data[i]` for `i = 0, ..., sz - 1`. -/
def copyLoop (src : vec α) : Nat → Nat → vec α → Outcome (vec α)
  | 0, _, c => .ok c
  | k + 1, i, c =>
    match loadAt src i with
    | none => .undefined
    | some x => (storeAt c i (some x)).bind (copyLoop src k (i + 1))

/-- Source: `copyTo(vec<T>& copy) const`, Vec.h lines 286-294.  The result is
the pair (source, destination). -/
def copyTo [Inhabited α] (env : Env) (self copy : vec α) : Outcome (vec α × vec α) :=
  ((((clear copy false).bind fun c => growTo env c self.sz).bind
    (copyLoop self self.sz 0))).map fun c => (self, c)

/-- Source: `moveTo(vec<T>& dest)`, Vec.h lines 295-305.  The result is the
pair (source, destination). -/
def moveTo (self dest : vec α) : Outcome (vec α × vec α) :=
  (clear dest true).map fun d =>
    ({ data := none, sz := 0, cap := 0 }, { d with data := self.data, sz := self.sz, cap := self.cap })

/-- Source: `swap(vec<T>& dest)`, Vec.h lines 306-312.  The result is the pair
(this, dest). -/
def swap (self dest : vec α) : vec α × vec α :=
  ({ data := dest.data, sz := dest.sz, cap := dest.cap },
   { data := self.data, sz := self.sz, cap := self.cap })

/-- Source: `resize(uint32_t s)`, Vec.h lines 314-321. -/
def resize [Inhabited α] (env : Env) (v : vec α) (s : Nat) : Outcome (vec α) :=
  if s < v.sz then shrink v (v.sz - s) else growTo env v s

/-- Source: `insert(uint32_t num)`, Vec.h lines 323-327. -/
def insert [Inhabited α] (env : Env) (v : vec α) (num : Nat) : Outcome (vec α) :=
  growTo env v (toUInt32 (v.sz + num))

/-- Source: `shrink_to_fit()`, Vec.h lines 334-350. -/
def shrink_to_fit (env : Env) (v : vec α) : vec α :=
  if v.sz = 0 then { data := none, sz := v.sz, cap := 0 }
  else
    match env.heap v.sz with
    | .block => { data := some (reallocBlock v.data v.sz), sz := v.sz, cap := v.sz }
    | _ => v

/-- The invariants of the data model: `sz ≤ cap`, both fields are `uint32_t`
values, the block is absent exactly when `cap = 0`, the block has `cap` slots,
and the slots `[0, sz)` hold constructed objects. -/
def Inv (v : vec α) : Prop :=
  v.sz ≤ v.cap ∧ v.cap ≤ 4294967295 ∧
  match v.data with
  | none => v.cap = 0
  | some blk => 0 < v.cap ∧ blk.length = v.cap ∧ (blk.take v.sz).all Option.isSome = true

instance decidableInv (v : vec α) : Decidable (Inv v) := by
  unfold Inv
  cases v.data <;> exact inferInstance

/-- Pushing the elements of a list one after the other, Vec.h `push(const T&)`. -/
def pushAll (env : Env) : vec α → List α → Outcome (vec α)
  | v, [] => .ok v
  | v, x :: xs => (push env v x).bind fun w => pushAll env w xs

/-- The capacities met while pushing onto an initially empty buffer: `0` and
the powers of two from `2` to `2^31`. -/
def IsPushCap (c : Nat) : Prop := c = 0 ∨ ∃ k, 1 ≤ k ∧ k ≤ 31 ∧ c = 2 ^ k

/-- The two invariants of the data model that do not mention the contents of
the storage: `0 ≤ size ≤ capacity`, and `capacity == 0` exactly when the storage
block is absent. -/
def SpecInv (v : vec α) : Prop := v.sz ≤ v.cap ∧ (v.cap = 0 ↔ v.data.isNone = true)

instance decidableSpecInv (v : vec α) : Decidable (SpecInv v) := by
  unfold SpecInv
  exact inferInstance

/-- Pushing the elements of a list one after the other, counting in `c` the
pushes that took the branch `if (sz == cap) capacity(sz + 1)` of Vec.h
`push(const T&)`, i.e. the calls of the planner. -/
def pushAllCount (env : Env) : vec α → List α → Nat → Outcome (vec α × Nat)
  | v, [], c => .ok (v, c)
  | v, x :: xs, c =>
    match push env v x with
    | .ok w => pushAllCount env w xs (if v.sz = v.cap then c + 1 else c)
    | .badAlloc w => .badAlloc (w, c)
    | .undefined => .undefined
    | .timeout => .timeout

/-- The spec's `round_up_even`: the least even number that is at least `n`. -/
def specRoundUpEven (n : Nat) : Nat := n + n % 2

/-- The spec's `round_down_even`: the greatest even number that is at most `n`. -/
def specRoundDownEven (n : Nat) : Nat := n - n % 2

/-- The spec's growth increment, section 4.1 step 1:
`delta = max(round_up_even(M - C + 1), round_down_even(C/2 + 2))`. -/
def specDelta (C M : Nat) : Nat :=
  max (specRoundUpEven (M - C + 1)) (specRoundDownEven (C / 2 + 2))

end vec

/-- An environment whose allocator always answers with a block and whose
planner loop may run 64 iterations. -/
def stdEnv : Env := { heap := fun _ => AllocReply.block, fuel := 64 }

/-- An environment whose allocator answers every request with `NULL` and
`errno == ENOMEM`. -/
def failEnv : Env := { heap := fun _ => AllocReply.nullENOMEM, fuel := 64 }

end CMSat

namespace CMSat

/-! ## Machine-integer lemmas -/

theorem land_mask_even (x : Nat) (hx : x < 4294967296) :
    Nat.land x 4294967294 = x - x % 2 := by
  show x &&& 4294967294 = x - x % 2
  apply Nat.eq_of_testBit_eq
  intro i
  rw [Nat.testBit_land]
  have hx2 : x - x % 2 = 2 * (x / 2) := by omega
  rw [hx2]
  cases i with
  | zero => simp [Nat.testBit_zero]
  | succ i =>
    rw [Nat.testBit_succ, Nat.testBit_succ, Nat.testBit_succ]
    have h1 : (4294967294 : Nat) / 2 = 2 ^ 31 - 1 := by norm_num
    have h2 : 2 * (x / 2) / 2 = x / 2 := by omega
    rw [h1, h2, Nat.testBit_two_pow_sub_one]
    by_cases hi : i < 31
    · simp [hi]
    · have : (x / 2).testBit i = false := by
        apply Nat.testBit_lt_two_pow
        have : 2 ^ 31 ≤ 2 ^ i := Nat.pow_le_pow_right (by norm_num) (by omega)
        omega
      simp [this]

theorem land_mask_full (x : Nat) (hx : x < 4294967296) :
    Nat.land x 4294967295 = x := by
  show x &&& 4294967295 = x
  have h : (4294967295 : Nat) = 2 ^ 32 - 1 := by norm_num
  rw [h, Nat.and_pow_two_sub_one_eq_mod]
  exact Nat.mod_eq_of_lt (by norm_num; exact hx)

theorem toInt32_range (n : Int) : -2147483648 ≤ toInt32 n ∧ toInt32 n < 2147483648 := by
  unfold toInt32; omega

theorem toInt32_id (n : Int) (h1 : -2147483648 ≤ n) (h2 : n < 2147483648) : toInt32 n = n := by
  unfold toInt32; omega

theorem toUInt32_lt (n : Int) : toUInt32 n < 4294967296 := by
  unfold toUInt32; omega

theorem toUInt32_cast (n : Int) : ((toUInt32 n : Nat) : Int) = n % 4294967296 := by
  unfold toUInt32; omega

theorem toUInt32_nat (n : Nat) (h : n < 4294967296) : toUInt32 (n : Int) = n := by
  unfold toUInt32; omega

theorem toInt32_toUInt32 (n : Int) : toInt32 (toUInt32 n) = toInt32 n := by
  rw [toUInt32_cast]; unfold toInt32; omega

theorem and32_neg_one (x : Int) : and32 x (-1) = toInt32 x := by
  unfold and32
  have h : toUInt32 (-1) = 4294967295 := by decide
  rw [h, land_mask_full _ (toUInt32_lt x), toInt32_toUInt32]

theorem and32_zero (x : Int) : and32 x 0 = 0 := by
  unfold and32
  have h : toUInt32 0 = 0 := by decide
  rw [h]
  show toInt32 ((toUInt32 x &&& 0 : Nat) : Int) = 0
  simp [toInt32]

theorem and32_not_one (x : Int) (h1 : -2147483648 ≤ x) (h2 : x < 2147483648) :
    and32 x (not32 1) = x - x % 2 := by
  unfold and32
  have h : toUInt32 (not32 1) = 4294967294 := by decide
  rw [h, land_mask_even _ (toUInt32_lt x)]
  have hc := toUInt32_cast x
  have hlt := toUInt32_lt x
  have hsub : ((toUInt32 x - toUInt32 x % 2 : Nat) : Int) = (toUInt32 x : Int) - (toUInt32 x : Int) % 2 := by
    omega
  rw [hsub, hc]
  unfold toInt32
  omega

theorem sar32_31 (x : Int) (h1 : -2147483648 ≤ x) (h2 : x < 2147483648) :
    sar32 x 31 = if x < 0 then -1 else 0 := by
  unfold sar32
  rw [Int.shiftRight_eq_div_pow]
  split_ifs with h <;> omega

theorem sar32_one (x : Int) : sar32 x 1 = x / 2 := by
  unfold sar32
  rw [Int.shiftRight_eq_div_pow]; norm_num

theorem imax_eq (x y : Int) (hx1 : -2147483648 ≤ x) (hx2 : x < 2147483648)
    (hy1 : -2147483648 ≤ y) (hy2 : y < 2147483648) :
    imax x y = toUInt32 (if toInt32 (y - x) < 0 then x else y) := by
  unfold imax
  have hr := toInt32_range (y - x)
  simp only [sar32_31 _ hr.1 hr.2]
  split_ifs with h
  · have hn : not32 (-1) = 0 := by decide
    rw [hn, and32_neg_one, and32_zero, toInt32_id x hx1 hx2, add_zero, toInt32_id x hx1 hx2]
  · have hn : not32 0 = -1 := by decide
    rw [hn, and32_neg_one, and32_zero, toInt32_id y hy1 hy2, zero_add, toInt32_id y hy1 hy2]

namespace vec

variable {α : Type}

/-! ## The capacity planner -/

theorem growthAdd_eq (C : Nat) (M : Int) (hC : C < 2147483648)
    (hCM : (C : Int) < M) (hM2 : M < 2147483648) (hd2 : M - C + 1 < 2147483648) :
    ((growthAdd C M : Nat) : Int) =
      (max ((M - C + 1) - (M - C + 1) % 2) (((C : Int) / 2 + 2) - ((C : Int) / 2 + 2) % 2))
        % 4294967296 := by
  unfold growthAdd
  have hc : toInt32 (C : Int) = C := toInt32_id _ (by omega) (by omega)
  rw [hc, sar32_one]
  have h1 : toInt32 (M - C) = M - C := toInt32_id _ (by omega) (by omega)
  have h2 : toInt32 (M - C + 1) = M - C + 1 := toInt32_id _ (by omega) hd2
  have h3 : toInt32 ((C : Int) / 2 + 2) = (C : Int) / 2 + 2 := toInt32_id _ (by omega) (by omega)
  rw [h1, h2, h3, and32_not_one _ (by omega) hd2, and32_not_one _ (by omega) (by omega)]
  rw [imax_eq _ _ (by omega) (by omega) (by omega) (by omega), toUInt32_cast]
  have h4 : toInt32 (((C : Int) / 2 + 2 - ((C : Int) / 2 + 2) % 2) - (M - C + 1 - (M - C + 1) % 2))
      = ((C : Int) / 2 + 2 - ((C : Int) / 2 + 2) % 2) - (M - C + 1 - (M - C + 1) % 2) :=
    toInt32_id _ (by omega) (by omega)
  rw [h4]
  split_ifs with h
  · rw [max_eq_left (by omega)]
  · rw [max_eq_right (by omega)]

theorem growthAdd_ge (C : Nat) (M : Int) (hCM : (C : Int) < M) (hM : M ≤ 2147483647) :
    M - C ≤ (growthAdd C M : Nat) := by
  by_cases hw : M - C + 1 < 2147483648
  · have h := growthAdd_eq C M (by omega) hCM (by omega) hw
    rw [h]
    rcases le_total ((M - C + 1) - (M - C + 1) % 2) (((C : Int) / 2 + 2) - ((C : Int) / 2 + 2) % 2)
      with hle | hle
    · rw [max_eq_right hle]; omega
    · rw [max_eq_left hle]; omega
  · have hC0 : C = 0 := by omega
    have hM0 : M = 2147483647 := by omega
    subst hC0; subst hM0
    have : growthAdd 0 2147483647 = 2147483648 := by decide
    rw [this]; norm_num

theorem pow2Loop_ge (fuel new_size cap r : Nat) (h : pow2Loop fuel new_size cap = some r) :
    cap ≤ r := by
  induction fuel generalizing new_size with
  | zero => simp [pow2Loop] at h
  | succ f ih =>
    unfold pow2Loop at h
    split_ifs at h with hlt
    · exact ih _ h
    · simp at h; omega

theorem dewaste_ge (new_size cap : Nat) (h : cap ≤ new_size) : cap ≤ dewaste new_size cap := by
  unfold dewaste
  split_ifs with hgt
  · omega
  · exact h

/-- C1. Lower bound of the planner: when the current capacity `C` and the
request `M` satisfy `C < M ≤ 2^31 - 1` and `capacity(M)` returns normally, the
new capacity is at least `M`. -/
theorem capacity_lower_bound (env : Env) (v w : vec α) (M : Int)
    (hCM : (v.cap : Int) < M) (hM : M ≤ 2147483647)
    (h : capacity env v M = Outcome.ok w) : M ≤ (w.cap : Int) := by
  have hadd := growthAdd_ge v.cap M hCM hM
  unfold capacity at h
  have hc : toInt32 (v.cap : Int) = v.cap := toInt32_id _ (by omega) (by omega)
  rw [hc] at h
  rw [if_neg (by omega)] at h
  simp only at h
  split_ifs at h with hov
  have hcap1 : (v.cap + growthAdd v.cap M) % 4294967296 = v.cap + growthAdd v.cap M := by omega
  rw [hcap1] at h
  cases hp : pow2Loop env.fuel 2 (v.cap + growthAdd v.cap M) with
  | none => rw [hp] at h; simp at h
  | some r =>
    rw [hp] at h
    have hr := dewaste_ge _ _ (pow2Loop_ge _ _ _ _ hp)
    simp only at h
    cases hh : env.heap (dewaste r (v.cap + growthAdd v.cap M)) with
    | block => rw [hh] at h; simp at h; subst h; simp; omega
    | nullENOMEM => rw [hh] at h; simp at h
    | nullOther => rw [hh] at h; simp at h; subst h; simp; omega

/-- C1, at a concrete input: from capacity 4 a request for 5 slots returns
with capacity 8. -/
theorem capacity_lower_bound_witness :
    ((({ data := some [some 1, some 2, some 3, some 4], sz := 4, cap := 4 } : vec Nat).cap : Int) < 5)
    ∧ (5 : Int) ≤ 2147483647
    ∧ capacity stdEnv ({ data := some [some 1, some 2, some 3, some 4], sz := 4, cap := 4 } : vec Nat) 5
        = Outcome.ok { data := some [some 1, some 2, some 3, some 4, none, none, none, none],
                       sz := 4, cap := 8 }
    ∧ (5 : Int) ≤ (({ data := some [some 1, some 2, some 3, some 4, none, none, none, none],
                       sz := 4, cap := 8 } : vec Nat).cap : Int) :=
  ⟨by decide, by decide, by decide,
   capacity_lower_bound stdEnv
     { data := some [some 1, some 2, some 3, some 4], sz := 4, cap := 4 }
     { data := some [some 1, some 2, some 3, some 4, none, none, none, none], sz := 4, cap := 8 }
     5 (by decide) (by decide) (by decide)⟩

/-! ## The power-of-two search -/

theorem pow2Loop_mono (f g new_size cap r : Nat) (h : pow2Loop f new_size cap = some r)
    (hfg : f ≤ g) : pow2Loop g new_size cap = some r := by
  induction f generalizing new_size g with
  | zero => simp [pow2Loop] at h
  | succ f ih =>
    obtain ⟨g', rfl⟩ : ∃ g', g = g' + 1 := ⟨g - 1, by omega⟩
    unfold pow2Loop at h ⊢
    split_ifs at h ⊢ with hlt
    · exact ih _ _ h (by omega)
    · exact h

theorem pow2Loop_det (f g new_size cap r s : Nat) (h1 : pow2Loop f new_size cap = some r)
    (h2 : pow2Loop g new_size cap = some s) : r = s := by
  have a := pow2Loop_mono f (max f g) new_size cap r h1 (le_max_left _ _)
  have b := pow2Loop_mono g (max f g) new_size cap s h2 (le_max_right _ _)
  rw [a] at b
  exact Option.some.inj b

theorem pow2Loop_zero (fuel cap : Nat) (hcap : 0 < cap) : pow2Loop fuel 0 cap = none := by
  induction fuel with
  | zero => rfl
  | succ f ih =>
    unfold pow2Loop
    rw [if_pos hcap]
    exact ih

/-- Above `2^31` the search never ends: the doubling wraps to `0` and stays there. -/
theorem pow2Loop_diverges (m : Nat) (hm : m ≤ 30) (cap : Nat) (hcap : 2147483648 < cap)
    (fuel : Nat) : pow2Loop fuel (2 ^ (31 - m)) cap = none := by
  induction m generalizing fuel with
  | zero =>
    cases fuel with
    | zero => rfl
    | succ f =>
      unfold pow2Loop
      have h31 : (2 : Nat) ^ (31 - 0) = 2147483648 := by norm_num
      rw [h31, if_pos hcap]
      exact pow2Loop_zero f cap (by omega)
  | succ m ih =>
    cases fuel with
    | zero => rfl
    | succ f =>
      unfold pow2Loop
      have hlt : (2 : Nat) ^ (31 - (m + 1)) < cap := by
        have : (2 : Nat) ^ (31 - (m + 1)) ≤ 2 ^ 31 := Nat.pow_le_pow_right (by norm_num) (by omega)
        omega
      have hstep : (2 : Nat) ^ (31 - (m + 1)) * 2 % 4294967296 = 2 ^ (31 - m) := by
        have e : 31 - m = (31 - (m + 1)) + 1 := by omega
        rw [e, pow_succ]
        apply Nat.mod_eq_of_lt
        have : (2 : Nat) ^ (31 - (m + 1)) ≤ 2 ^ 30 := Nat.pow_le_pow_right (by norm_num) (by omega)
        omega
      rw [if_pos hlt, hstep]
      exact ih (by omega) f

theorem pow2Loop_diverges_two (cap : Nat) (hcap : 2147483648 < cap) (fuel : Nat) :
    pow2Loop fuel 2 cap = none := by
  have h := pow2Loop_diverges 30 (le_refl _) cap hcap fuel
  simpa using h

/-- Up to `2^31` the search ends within `32` evaluations of its condition, at a
power of two between the bound and `2^31`. -/
theorem pow2Loop_terminates (m : Nat) (hm : m ≤ 30) (cap : Nat) (hcap : cap ≤ 2147483648)
    (fuel : Nat) (hf : m + 2 ≤ fuel) :
    ∃ r, pow2Loop fuel (2 ^ (31 - m)) cap = some r ∧ cap ≤ r ∧ r ≤ 2147483648 ∧
      ∃ k, 1 ≤ k ∧ k ≤ 31 ∧ r = 2 ^ k := by
  induction m generalizing fuel with
  | zero =>
    obtain ⟨f, rfl⟩ : ∃ f, fuel = f + 1 := ⟨fuel - 1, by omega⟩
    unfold pow2Loop
    have h31 : (2 : Nat) ^ (31 - 0) = 2147483648 := by norm_num
    rw [h31, if_neg (by omega)]
    exact ⟨2147483648, rfl, hcap, le_refl _, 31, by norm_num, le_refl _, by norm_num⟩
  | succ m ih =>
    obtain ⟨f, rfl⟩ : ∃ f, fuel = f + 1 := ⟨fuel - 1, by omega⟩
    unfold pow2Loop
    have hle : (2 : Nat) ^ (31 - (m + 1)) ≤ 2 ^ 30 := Nat.pow_le_pow_right (by norm_num) (by omega)
    by_cases hlt : (2 : Nat) ^ (31 - (m + 1)) < cap
    · have hstep : (2 : Nat) ^ (31 - (m + 1)) * 2 % 4294967296 = 2 ^ (31 - m) := by
        have e : 31 - m = (31 - (m + 1)) + 1 := by omega
        rw [e, pow_succ]
        apply Nat.mod_eq_of_lt
        omega
      rw [if_pos hlt, hstep]
      exact ih (by omega) f (by omega)
    · rw [if_neg hlt]
      exact ⟨_, rfl, by omega, by omega, 31 - (m + 1), by omega, by omega, rfl⟩

theorem pow2Loop_terminates_two (cap : Nat) (hcap : cap ≤ 2147483648) (fuel : Nat)
    (hf : 32 ≤ fuel) :
    ∃ r, pow2Loop fuel 2 cap = some r ∧ cap ≤ r ∧ r ≤ 2147483648 ∧
      ∃ k, 1 ≤ k ∧ k ≤ 31 ∧ r = 2 ^ k := by
  have h := pow2Loop_terminates 30 (le_refl _) cap hcap fuel (by omega)
  simpa using h

theorem dewaste_le (new_size cap : Nat) : dewaste new_size cap ≤ max new_size 1431655765 := by
  unfold dewaste
  split_ifs with h
  · have : new_size * 2 % 4294967296 < 4294967296 := Nat.mod_lt _ (by norm_num)
    omega
  · exact le_max_left _ _

theorem growthAdd_le (C : Nat) (M : Int) (hCM : (C : Int) < M) (hM : M ≤ 2147483647)
    (hC : C ≤ 1431655764) : C + growthAdd C M ≤ 2147483648 := by
  by_cases hw : M - C + 1 < 2147483648
  · have h := growthAdd_eq C M (by omega) hCM (by omega) hw
    rcases le_total ((M - C + 1) - (M - C + 1) % 2) (((C : Int) / 2 + 2) - ((C : Int) / 2 + 2) % 2)
      with hle | hle
    · rw [max_eq_right hle] at h; omega
    · rw [max_eq_left hle] at h; omega
  · have hC0 : C = 0 := by omega
    have hM0 : M = 2147483647 := by omega
    subst hC0; subst hM0
    have : growthAdd 0 2147483647 = 2147483648 := by decide
    rw [this]

/-- The growing path of `capacity`, once its intermediate values are known. -/
theorem capacity_grow_eq (env : Env) (v : vec α) (M : Int) (P : Nat)
    (hcap : v.cap ≤ 4294967295)
    (hlt : ¬ toInt32 (v.cap : Int) ≥ M)
    (hov : ¬ growthAdd v.cap M > 4294967295 - v.cap)
    (hP : pow2Loop env.fuel 2 (v.cap + growthAdd v.cap M) = some P)
    (hheap : env.heap (dewaste P (v.cap + growthAdd v.cap M)) = AllocReply.block) :
    capacity env v M = Outcome.ok
      { data := some (reallocBlock v.data (dewaste P (v.cap + growthAdd v.cap M))),
        sz := v.sz, cap := dewaste P (v.cap + growthAdd v.cap M) } := by
  unfold capacity
  rw [if_neg hlt]
  simp only
  rw [if_neg hov]
  have hcap1 : (v.cap + growthAdd v.cap M) % 4294967296 = v.cap + growthAdd v.cap M := by omega
  rw [hcap1, hP]
  simp only
  rw [hheap]

/-- In range the planner returns: with a working allocator, `32` units of fuel,
a current capacity of at most `1431655764` and a larger request of at most
`2^31 - 1`, `capacity` reallocates to a capacity between the request and `2^31`. -/
theorem capacity_returns (env : Env) (v : vec α) (M : Int) (halloc : env.allocOk)
    (hfuel : 32 ≤ env.fuel) (hCM : (v.cap : Int) < M) (hM : M ≤ 2147483647)
    (hC : v.cap ≤ 1431655764) :
    ∃ c, capacity env v M = Outcome.ok
        { data := some (reallocBlock v.data c), sz := v.sz, cap := c } ∧
      M ≤ (c : Int) ∧ c ≤ 2147483648 := by
  have hge := growthAdd_ge v.cap M hCM hM
  have hle := growthAdd_le v.cap M hCM hM hC
  obtain ⟨P, hP, hPge, hPle, _⟩ := pow2Loop_terminates_two _ hle env.fuel hfuel
  refine ⟨dewaste P (v.cap + growthAdd v.cap M), ?_, ?_, ?_⟩
  · apply capacity_grow_eq env v M P (by omega) _ _ hP (halloc _)
    · rw [toInt32_id _ (by omega) (by omega)]; omega
    · omega
  · have := dewaste_ge _ _ hPge
    omega
  · have := dewaste_le P (v.cap + growthAdd v.cap M)
    have : max P 1431655765 ≤ 2147483648 := max_le hPle (by norm_num)
    omega

/-- When the capacity already covers the request (both below `2^31`),
`capacity` changes nothing. -/
theorem capacity_noop (env : Env) (v : vec α) (M : Int) (hcap : v.cap < 2147483648)
    (hM : M ≤ (v.cap : Int)) : capacity env v M = Outcome.ok v := by
  unfold capacity
  rw [toInt32_id _ (by omega) (by omega), if_pos (by omega)]

/-! ## Storage blocks -/

theorem reallocBlock_length (d : Option (Block α)) (n : Nat) :
    (reallocBlock d n).length = n := by
  unfold reallocBlock
  simp only [List.length_append, List.length_take, List.length_replicate]
  omega

theorem reallocBlock_take (blk : Block α) (n k : Nat) (hk : k ≤ blk.length) (hkn : k ≤ n) :
    (reallocBlock (some blk) n).take k = blk.take k := by
  unfold reallocBlock
  simp only [Option.getD_some]
  rw [List.take_append_of_le_length (by simp; omega), List.take_take]
  congr 1
  omega

theorem reallocBlock_none_take (n k : Nat) :
    (reallocBlock (none : Option (Block α)) n).take k = List.replicate (min k n) none := by
  unfold reallocBlock
  simp [List.take_replicate]

theorem storeAt_ok (v : vec α) (blk : Block α) (i : Nat) (x : Option α)
    (hd : v.data = some blk) (hi : i < blk.length) :
    storeAt v i x = Outcome.ok { v with data := some (blk.set i x) } := by
  unfold storeAt
  rw [hd]
  simp only
  rw [if_pos hi]

theorem set_take_succ (blk : Block α) (i : Nat) (x : Option α) (hi : i < blk.length) :
    (blk.set i x).take (i + 1) = blk.take i ++ [x] := by
  apply List.ext_getElem
  · simp; omega
  · intro j h1 h2
    simp only [List.getElem_take]
    by_cases hj : j = i
    · subst hj
      rw [List.getElem_append_right (by simp)]
      simp
    · have hlt : j < i := by simp at h1; omega
      rw [List.getElem_set_ne (by omega), List.getElem_append_left (by simp; omega)]
      simp

theorem fillLoop_ok (x : Option α) (k i : Nat) (v : vec α) (blk : Block α)
    (hd : v.data = some blk) (hik : i + k ≤ blk.length) :
    fillLoop x k i v = Outcome.ok
      { v with data := some (blk.take i ++ List.replicate k x ++ blk.drop (i + k)) } := by
  induction k generalizing i v blk with
  | zero =>
    simp only [fillLoop, List.replicate_zero, List.append_nil, add_zero, List.take_append_drop]
    cases v; simp_all
  | succ k ih =>
    unfold fillLoop
    rw [storeAt_ok v blk i x hd (by omega)]
    simp only [Outcome.bind]
    rw [ih (i + 1) _ (blk.set i x) rfl (by simp; omega)]
    congr 3
    rw [set_take_succ blk i x (by omega), List.drop_set_of_lt _ _ (by omega)]
    simp [List.replicate_succ, Nat.add_assoc, Nat.add_comm 1 k]

/-! ## Growing -/

theorem growTo_eq_growToPad [Inhabited α] (env : Env) (v : vec α) (n : Nat) :
    growTo env v n = growToPad env v n default := rfl

theorem Inv_none (v : vec α) (h : Inv v) (hd : v.data = none) : v.cap = 0 ∧ v.sz = 0 := by
  unfold Inv at h
  rw [hd] at h
  obtain ⟨h1, _, h3⟩ := h
  simp only at h3
  omega

theorem Inv_some (v : vec α) (blk : Block α) (h : Inv v) (hd : v.data = some blk) :
    blk.length = v.cap ∧ 0 < v.cap ∧ (blk.take v.sz).all Option.isSome = true := by
  unfold Inv at h
  rw [hd] at h
  obtain ⟨_, _, h3, h4, h5⟩ := h
  exact ⟨h4, h3, h5⟩

theorem Inv_data_of_pos (v : vec α) (h : Inv v) (hc : 0 < v.cap) :
    ∃ blk, v.data = some blk := by
  cases hd : v.data with
  | none => have := (Inv_none v h hd).1; omega
  | some blk => exact ⟨blk, rfl⟩

theorem Inv_le (v : vec α) (h : Inv v) : v.sz ≤ v.cap ∧ v.cap ≤ 4294967295 := ⟨h.1, h.2.1⟩

/-- Filling the slots `[sz, n)` of a block that has at least `n` slots and then
setting `sz = n`: the common tail of both `growTo` overloads. -/
theorem fill_tail (x : α) (w : vec α) (blk : Block α) (n : Nat) (hd : w.data = some blk)
    (hsz : w.sz ≤ n) (hn : n ≤ blk.length) :
    ((fillLoop (some x) (n - w.sz) w.sz w).bind fun u => Outcome.ok { u with sz := n }) =
      Outcome.ok { data := some (blk.take w.sz ++ List.replicate (n - w.sz) (some x) ++ blk.drop n),
                   sz := n, cap := w.cap } := by
  rw [fillLoop_ok (some x) (n - w.sz) w.sz w blk hd (by omega)]
  simp only [Outcome.bind]
  have : w.sz + (n - w.sz) = n := by omega
  rw [this]

/-- In range `growTo(n, pad)` returns: on a buffer satisfying the invariants,
with a working allocator, enough fuel, `n ≤ 2^31 - 1` and a capacity below
`2^31` (at most `1431655764` when it has to grow), it returns a buffer of size `max sz n` and capacity at least `n`
whose elements are the old ones followed by `n - sz` copies of `pad`. -/
theorem growToPad_returns (env : Env) (v : vec α) (n : Nat) (pad : α) (hinv : Inv v)
    (halloc : env.allocOk) (hfuel : 32 ≤ env.fuel) (hn : n ≤ 2147483647)
    (hcap31 : v.cap < 2147483648) (hC : v.cap < n → v.cap ≤ 1431655764) :
    ∃ w, growToPad env v n pad = Outcome.ok w ∧ w.sz = max v.sz n ∧ n ≤ w.cap ∧
      w.cap ≤ 2147483648 ∧ (n ≤ v.cap → w.cap = v.cap) ∧
      elems w = elems v ++ List.replicate (n - v.sz) (some pad) ∧ Inv w := by
  unfold growToPad
  by_cases hsz : v.sz ≥ n
  · rw [if_pos hsz]
    refine ⟨v, rfl, by omega, by have := hinv.1; omega, by omega, fun _ => rfl, ?_, hinv⟩
    have : n - v.sz = 0 := by omega
    simp [this]
  · rw [if_neg hsz]
    have hszn : v.sz < n := by omega
    by_cases hcap : n ≤ v.cap
    · -- the block is already large enough
      rw [capacity_noop env v (toInt32 n) (by omega)
            (by rw [toInt32_id _ (by omega) (by omega)]; exact_mod_cast hcap)]
      obtain ⟨blk, hd⟩ := Inv_data_of_pos v hinv (by omega)
      obtain ⟨hlen, _, hall⟩ := Inv_some v blk hinv hd
      simp only [Outcome.bind]
      have ht := fill_tail pad v blk n hd (by omega) (by omega)
      simp only [Outcome.bind] at ht
      rw [ht]
      refine ⟨_, rfl, by simp; omega, by simpa using hcap, by simp; omega, fun _ => rfl, ?_, ?_⟩
      · simp only [elems, hd, Option.getD_some]
        rw [List.take_append_of_le_length (by simp; omega)]
        rw [List.take_of_length_le (by simp; omega)]
      · unfold Inv
        simp only
        refine ⟨hcap, hinv.2.1, by omega, by simp; omega, ?_⟩
        rw [List.take_append_of_le_length (by simp; omega)]
        rw [List.take_of_length_le (by simp; omega)]
        simp only [List.all_append, Bool.and_eq_true]
        exact ⟨hall, by simp⟩
    · -- the planner reallocates
      obtain ⟨c, hcapok, hcM, hcle⟩ := capacity_returns env v (toInt32 n) halloc hfuel
        (by rw [toInt32_id _ (by omega) (by omega)]; omega)
        (by rw [toInt32_id _ (by omega) (by omega)]; omega) (hC (by omega))
      rw [toInt32_id _ (by omega) (by omega)] at hcM
      have hnc : n ≤ c := by exact_mod_cast hcM
      rw [hcapok]
      simp only [Outcome.bind]
      have ht := fill_tail pad { data := some (reallocBlock v.data c), sz := v.sz, cap := c }
        (reallocBlock v.data c) n rfl (by simp; omega) (by rw [reallocBlock_length]; exact hnc)
      simp only [Outcome.bind] at ht
      rw [ht]
      have hpre : (reallocBlock v.data c).take v.sz = elems v := by
        cases hd : v.data with
        | none =>
          have := Inv_none v hinv hd
          simp [elems, hd, this.2]
        | some blk =>
          obtain ⟨hlen, _, _⟩ := Inv_some v blk hinv hd
          rw [reallocBlock_take blk c v.sz (by have := hinv.1; omega) (by omega)]
          simp [elems, hd]
      refine ⟨_, rfl, by simp; omega, by simpa using hnc, by simpa using hcle,
        fun h => absurd h hcap, ?_, ?_⟩
      · simp only [elems, Option.getD_some]
        rw [List.take_append_of_le_length (by simp [reallocBlock_length]; omega)]
        rw [List.take_of_length_le (by simp [reallocBlock_length]; omega), hpre]
        rfl
      · unfold Inv
        simp only
        refine ⟨hnc, by omega, by omega, by simp [reallocBlock_length]; omega, ?_⟩
        rw [List.take_append_of_le_length (by simp [reallocBlock_length]; omega)]
        rw [List.take_of_length_le (by simp [reallocBlock_length]; omega), hpre]
        simp only [List.all_append, Bool.and_eq_true]
        refine ⟨?_, by simp⟩
        cases hd : v.data with
        | none =>
          have := Inv_none v hinv hd
          simp [elems, hd, this.2]
        | some blk =>
          obtain ⟨_, _, hall⟩ := Inv_some v blk hinv hd
          simpa [elems, hd] using hall

/-! ## Pushing -/

set_option maxRecDepth 100000 in
/-- The planner on a full buffer of capacity `2^k`, `1 ≤ k ≤ 30`, asked for one
more slot: the candidate is rounded up to `2^(k+1)` and kept. -/
theorem double_table : ∀ k, k < 31 → 1 ≤ k →
    (growthAdd (2 ^ k) (((2 ^ k : Nat) : Int) + 1) ≤ 4294967295 - 2 ^ k ∧
     pow2Loop 32 2 (2 ^ k + growthAdd (2 ^ k) (((2 ^ k : Nat) : Int) + 1)) = some (2 ^ (k + 1)) ∧
     dewaste (2 ^ (k + 1)) (2 ^ k + growthAdd (2 ^ k) (((2 ^ k : Nat) : Int) + 1)) = 2 ^ (k + 1)) := by
  decide

theorem zero_table :
    (growthAdd 0 (((0 : Nat) : Int) + 1) ≤ 4294967295 - 0 ∧
     pow2Loop 32 2 (0 + growthAdd 0 (((0 : Nat) : Int) + 1)) = some 2 ∧
     dewaste 2 (0 + growthAdd 0 (((0 : Nat) : Int) + 1)) = 2) := by
  decide

theorem storeAt_inv (v w : vec α) (i : Nat) (x : Option α) (h : storeAt v i x = Outcome.ok w) :
    ∃ blk, v.data = some blk ∧ i < blk.length ∧
      w = { data := some (blk.set i x), sz := v.sz, cap := v.cap } := by
  unfold storeAt at h
  cases hd : v.data with
  | none => rw [hd] at h; simp at h
  | some blk =>
    rw [hd] at h
    simp only at h
    split_ifs at h with hi
    refine ⟨blk, rfl, hi, ?_⟩
    simp at h
    rw [← h]

/-- What a normal return of `capacity` looks like when the request exceeds a
current capacity below `2^31`: the new capacity is the one the search and the
de-waste step give, whatever fuel the search had. -/
theorem capacity_ok_inv (env : Env) (v w : vec α) (M : Int) (P : Nat)
    (hCM : (v.cap : Int) < M) (hcap : v.cap < 2147483648)
    (hov : growthAdd v.cap M ≤ 4294967295 - v.cap)
    (hP : pow2Loop 32 2 (v.cap + growthAdd v.cap M) = some P)
    (h : capacity env v M = Outcome.ok w) :
    w.cap = dewaste P (v.cap + growthAdd v.cap M) ∧ w.sz = v.sz ∧
      (w.data = none ∨ w.data = some (reallocBlock v.data w.cap)) := by
  unfold capacity at h
  rw [toInt32_id _ (by omega) (by omega), if_neg (by omega)] at h
  simp only at h
  rw [if_neg (by omega)] at h
  have hcap1 : (v.cap + growthAdd v.cap M) % 4294967296 = v.cap + growthAdd v.cap M := by omega
  rw [hcap1] at h
  cases hp : pow2Loop env.fuel 2 (v.cap + growthAdd v.cap M) with
  | none => rw [hp] at h; simp at h
  | some r =>
    rw [hp] at h
    have hr : r = P := pow2Loop_det _ _ _ _ _ _ hp hP
    subst hr
    simp only at h
    cases hh : env.heap (dewaste r (v.cap + growthAdd v.cap M)) with
    | block => rw [hh] at h; simp at h; subst h; simp
    | nullENOMEM => rw [hh] at h; simp at h
    | nullOther => rw [hh] at h; simp at h; subst h; simp

/-- A full buffer whose capacity is `0` or a power of two up to `2^30`, asked
for one more slot: a normal return of `capacity` has doubled the capacity
(`2` from `0`). -/
theorem capacity_full_ok (env : Env) (v w : vec α) (hS : IsPushCap v.cap)
    (hlt : v.cap < 2147483648) (h : capacity env v ((v.cap : Int) + 1) = Outcome.ok w) :
    w.cap = (if v.cap = 0 then 2 else 2 * v.cap) ∧ w.sz = v.sz := by
  rcases hS with h0 | ⟨k, hk1, hk2, hk⟩
  · have ht := (zero_table)
    rw [h0] at h
    have hv : (v.cap : Int) = ((0 : Nat) : Int) := by rw [h0]
    have := capacity_ok_inv env v w (((0 : Nat) : Int) + 1) 2 (by rw [h0]; norm_num) (by omega)
      (by rw [h0]; exact ht.1) (by rw [h0]; exact ht.2.1) (by simpa using h)
    rw [h0] at this
    rw [this.1, ht.2.2, if_pos h0]
    exact ⟨rfl, this.2.1⟩
  · have hk31 : k < 31 := by
      by_contra hc
      have : k = 31 := by omega
      subst this
      norm_num at hk
      omega
    have ht := double_table k hk31 hk1
    have hpos : 0 < 2 ^ k := Nat.pos_pow_of_pos k (by norm_num)
    have := capacity_ok_inv env v w (((2 ^ k : Nat) : Int) + 1) (2 ^ (k + 1))
      (by rw [hk]; omega) hlt (by rw [hk]; exact ht.1) (by rw [hk]; exact ht.2.1)
      (by rw [← hk]; exact h)
    rw [hk] at this
    rw [this.1, ht.2.2, hk, if_neg (by omega)]
    exact ⟨by rw [pow_succ]; omega, by rw [this.2.1]⟩

theorem IsPushCap_next (c : Nat) (h : IsPushCap c) (hlt : c < 2147483648) :
    IsPushCap (if c = 0 then 2 else 2 * c) := by
  rcases h with h0 | ⟨k, hk1, hk2, hk⟩
  · rw [if_pos h0]; exact Or.inr ⟨1, le_refl _, by norm_num, by norm_num⟩
  · have hk31 : k < 31 := by
      by_contra hc
      have : k = 31 := by omega
      subst this
      norm_num at hk
      omega
    have hpos : 0 < 2 ^ k := Nat.pos_pow_of_pos k (by norm_num)
    rw [if_neg (by omega)]
    exact Or.inr ⟨k + 1, by omega, by omega, by rw [hk, pow_succ]; omega⟩

theorem IsPushCap_le (c : Nat) (h : IsPushCap c) : c ≤ 2147483648 := by
  rcases h with h0 | ⟨k, hk1, hk2, hk⟩
  · omega
  · have : (2 : Nat) ^ k ≤ 2 ^ 31 := Nat.pow_le_pow_right (by norm_num) hk2
    omega

theorem IsPushCap_lt (c : Nat) (h : IsPushCap c) (hlt : c < 2147483648) : c ≤ 1073741824 := by
  rcases h with h0 | ⟨k, hk1, hk2, hk⟩
  · omega
  · have hk31 : k < 31 := by
      by_contra hc
      have : k = 31 := by omega
      subst this
      norm_num at hk
      omega
    have : (2 : Nat) ^ k ≤ 2 ^ 30 := Nat.pow_le_pow_right (by norm_num) (by omega)
    omega

theorem toUInt32_succ (n : Nat) (h : n + 1 < 4294967296) :
    toUInt32 ((n : Int) + 1) = n + 1 := by
  unfold toUInt32; omega

/-- The request `sz + 1` of `push`, as the `int32_t` argument of `capacity`. -/
theorem push_request (n : Nat) (h : n < 2147483647) :
    toInt32 (toUInt32 ((n : Int) + 1)) = (n : Int) + 1 := by
  rw [toInt32_toUInt32, toInt32_id _ (by omega) (by omega)]

/-- A normal return of `push` (whatever the allocator and the fuel) from a
buffer with `sz ≤ cap`, `sz < 2^31` and a capacity that is `0` or a power of
two: the size grew by one and the capacity is again `0` or a power of two. -/
theorem push_ok_inv (env : Env) (v w : vec α) (x : α) (hS : IsPushCap v.cap)
    (hle : v.sz ≤ v.cap) (hsz : v.sz < 2147483648) (h : push env v x = Outcome.ok w) :
    w.sz = v.sz + 1 ∧ w.sz ≤ w.cap ∧ IsPushCap w.cap ∧
      (v.sz < v.cap → w.cap = v.cap) ∧
      (v.sz = v.cap → w.cap = if v.cap = 0 then 2 else 2 * v.cap) := by
  unfold push at h
  by_cases hfull : v.sz = v.cap
  · rw [if_pos hfull] at h
    have hlt : v.cap < 2147483648 := by omega
    have hc30 := IsPushCap_lt v.cap hS hlt
    rw [hfull, push_request _ (by omega)] at h
    cases hc : capacity env v ((v.cap : Int) + 1) with
    | ok u =>
      rw [hc] at h
      obtain ⟨hucap, husz⟩ := capacity_full_ok env v u hS hlt hc
      simp only [Outcome.bind] at h
      cases hs : storeAt u u.sz (some x) with
      | ok t =>
        rw [hs] at h
        obtain ⟨blk, _, _, ht⟩ := storeAt_inv u t u.sz (some x) hs
        simp only [Outcome.ok.injEq] at h
        subst h; subst ht
        have hu : toUInt32 ((u.sz : Int) + 1) = u.sz + 1 := toUInt32_succ _ (by omega)
        refine ⟨?_, ?_, ?_, fun hh => absurd hfull (by omega), fun _ => hucap⟩
        · show toUInt32 ((u.sz : Int) + 1) = v.sz + 1
          rw [hu, husz]
        · show toUInt32 ((u.sz : Int) + 1) ≤ u.cap
          rw [hu, husz, hucap]
          split_ifs <;> omega
        · show IsPushCap u.cap
          rw [hucap]
          exact IsPushCap_next v.cap hS hlt
      | badAlloc t => rw [hs] at h; simp at h
      | undefined => rw [hs] at h; simp at h
      | timeout => rw [hs] at h; simp at h
    | badAlloc u => rw [hc] at h; simp [Outcome.bind] at h
    | undefined => rw [hc] at h; simp [Outcome.bind] at h
    | timeout => rw [hc] at h; simp [Outcome.bind] at h
  · rw [if_neg hfull] at h
    simp only [Outcome.bind] at h
    cases hs : storeAt v v.sz (some x) with
    | ok t =>
      rw [hs] at h
      obtain ⟨blk, _, _, ht⟩ := storeAt_inv v t v.sz (some x) hs
      simp only [Outcome.ok.injEq] at h
      subst h; subst ht
      have hu : toUInt32 ((v.sz : Int) + 1) = v.sz + 1 := toUInt32_succ _ (by omega)
      refine ⟨hu, ?_, hS, fun _ => rfl, fun hh => absurd hh hfull⟩
      show toUInt32 ((v.sz : Int) + 1) ≤ v.cap
      rw [hu]
      omega
    | badAlloc t => rw [hs] at h; simp at h
    | undefined => rw [hs] at h; simp at h
    | timeout => rw [hs] at h; simp at h

/-- The tail of `push`: the store at `data[sz]` followed by `sz++`, on a block
with a free slot. -/
theorem store_tail (u : vec α) (blk : Block α) (x : α) (hd : u.data = some blk)
    (hlt : u.sz < blk.length) (hlen : blk.length = u.cap) (hcap : u.cap ≤ 4294967295)
    (hall : (blk.take u.sz).all Option.isSome = true) :
    ∃ w, ((storeAt u u.sz (some x)).bind
        fun t => Outcome.ok { t with sz := toUInt32 ((t.sz : Int) + 1) }) = Outcome.ok w ∧
      Inv w ∧ elems w = blk.take u.sz ++ [some x] ∧ w.sz = u.sz + 1 ∧ w.cap = u.cap := by
  rw [storeAt_ok u blk u.sz (some x) hd hlt]
  simp only [Outcome.bind]
  have hu : toUInt32 ((u.sz : Int) + 1) = u.sz + 1 := toUInt32_succ _ (by omega)
  rw [hu]
  refine ⟨_, rfl, ?_, ?_, rfl, rfl⟩
  · unfold Inv
    simp only
    refine ⟨by omega, hcap, by omega, by simp; omega, ?_⟩
    rw [set_take_succ blk u.sz (some x) hlt]
    simp only [List.all_append, Bool.and_eq_true]
    exact ⟨hall, by simp⟩
  · simp only [elems, Option.getD_some]
    exact set_take_succ blk u.sz (some x) hlt

/-- In range `push(elem)` returns: on a buffer satisfying the invariants with
fewer than `2^31` elements (and, when it is full, a capacity of at most
`1431655764`), with a working allocator and enough fuel, it returns a buffer
satisfying the invariants whose elements are the old ones followed by `elem`. -/
theorem push_returns (env : Env) (v : vec α) (x : α) (hinv : Inv v) (halloc : env.allocOk)
    (hfuel : 32 ≤ env.fuel) (hsz : v.sz < 2147483648)
    (hC : v.sz = v.cap → v.cap ≤ 1431655764) :
    ∃ w, push env v x = Outcome.ok w ∧ Inv w ∧ elems w = elems v ++ [some x] := by
  unfold push
  by_cases hfull : v.sz = v.cap
  · rw [if_pos hfull, hfull, push_request _ (by omega)]
    obtain ⟨c, hcapok, hcM, hcle⟩ := capacity_returns env v ((v.cap : Int) + 1) halloc hfuel
      (by omega) (by omega) (hC hfull)
    have hc : v.cap + 1 ≤ c := by exact_mod_cast hcM
    rw [hcapok]
    simp only [Outcome.bind]
    have hpre : (reallocBlock v.data c).take v.sz = elems v := by
      cases hd : v.data with
      | none =>
        have := Inv_none v hinv hd
        simp [elems, hd, this.2]
      | some blk =>
        obtain ⟨hlen, _, _⟩ := Inv_some v blk hinv hd
        rw [reallocBlock_take blk c v.sz (by omega) (by omega)]
        simp [elems, hd]
    have hall : ((reallocBlock v.data c).take v.sz).all Option.isSome = true := by
      rw [hpre]
      cases hd : v.data with
      | none =>
        have := Inv_none v hinv hd
        simp [elems, hd, this.2]
      | some blk =>
        obtain ⟨_, _, hall⟩ := Inv_some v blk hinv hd
        simpa [elems, hd] using hall
    obtain ⟨w, hw, hwinv, hwel, _, _⟩ := store_tail
      { data := some (reallocBlock v.data c), sz := v.sz, cap := c } (reallocBlock v.data c) x rfl
      (by rw [reallocBlock_length]; show v.sz < c; omega) (reallocBlock_length _ _)
      (by show c ≤ 4294967295; omega) hall
    simp only [Outcome.bind] at hw
    exact ⟨w, hw, hwinv, by rw [hwel]; show (reallocBlock v.data c).take v.sz ++ _ = _; rw [hpre]⟩
  · rw [if_neg hfull]
    simp only [Outcome.bind]
    have hle := hinv.1
    obtain ⟨blk, hd⟩ := Inv_data_of_pos v hinv (by omega)
    obtain ⟨hlen, _, hall⟩ := Inv_some v blk hinv hd
    obtain ⟨w, hw, hwinv, hwel, _, _⟩ := store_tail v blk x hd (by omega) hlen hinv.2.1 hall
    simp only [Outcome.bind] at hw
    exact ⟨w, hw, hwinv, by rw [hwel]; simp [elems, hd]⟩

theorem elems_length (v : vec α) (h : Inv v) : (elems v).length = v.sz := by
  cases hd : v.data with
  | none =>
    have := Inv_none v h hd
    simp [elems, hd, this.2]
  | some blk =>
    obtain ⟨hlen, _, _⟩ := Inv_some v blk h hd
    have := h.1
    simp [elems, hd]
    omega

/-- Pushing a list onto a buffer: as long as the final size stays within
`2^31`, every push returns and the elements are appended in order. -/
theorem pushAll_returns (env : Env) (halloc : env.allocOk) (hfuel : 32 ≤ env.fuel)
    (xs : List α) (v : vec α) (hinv : Inv v) (hS : IsPushCap v.cap)
    (hlen : v.sz + xs.length ≤ 2147483648) :
    ∃ w, pushAll env v xs = Outcome.ok w ∧ Inv w ∧ IsPushCap w.cap ∧
      w.sz = v.sz + xs.length ∧ elems w = elems v ++ xs.map some := by
  induction xs generalizing v with
  | nil => exact ⟨v, rfl, hinv, hS, by simp, by simp⟩
  | cons x xs ih =>
    simp only [List.length_cons] at hlen
    have hsz : v.sz < 2147483648 := by omega
    obtain ⟨u, hu, huinv, huel⟩ := push_returns env v x hinv halloc hfuel hsz
      (fun hfull => by have := IsPushCap_lt v.cap hS (by omega); omega)
    obtain ⟨husz, _, huS, _, _⟩ := push_ok_inv env v u x hS hinv.1 hsz hu
    obtain ⟨w, hw, hwinv, hwS, hwsz, hwel⟩ := ih u huinv huS (by omega)
    refine ⟨w, ?_, hwinv, hwS, ?_, ?_⟩
    · simp only [pushAll, hu, Outcome.bind]
      exact hw
    · simp only [List.length_cons]; omega
    · rw [hwel, huel]; simp

theorem index_of_elems (w : vec α) (l : List α) (i : Nat) (h : i < l.length)
    (hel : elems w = l.map some) : index w i = some (l.get ⟨i, h⟩) := by
  unfold index loadAt
  unfold elems at hel
  cases hd : w.data with
  | none =>
    rw [hd] at hel
    simp at hel
    subst hel
    simp at h
  | some blk =>
    rw [hd] at hel
    simp only [Option.getD_some] at hel
    have h1 : (blk.take w.sz)[i]? = (l.map some)[i]? := by rw [hel]
    have hlt : i < w.sz := by
      have := congrArg List.length hel
      simp at this
      omega
    rw [List.getElem?_take_of_lt hlt] at h1
    simp only [List.get?_eq_getElem?]
    rw [h1]
    simp [List.getElem?_eq_getElem h]

/-- A full buffer of `2^31` slots: `push` calls `capacity(sz + 1)` with the
request `-2147483647`, the candidate capacity is `2^31 + 2`, and the
power-of-two search does not end, whatever the fuel. -/
theorem push_at_limit (env : Env) (v : vec α) (x : α) (hsz : v.sz = 2147483648)
    (hcap : v.cap = 2147483648) : push env v x = Outcome.timeout := by
  unfold push
  rw [if_pos (by omega), hsz]
  have hM : toInt32 (toUInt32 (((2147483648 : Nat) : Int) + 1)) = -2147483647 := by decide
  rw [hM]
  have hcapacity : capacity env v (-2147483647) = Outcome.timeout := by
    unfold capacity
    rw [hcap]
    have h1 : toInt32 ((2147483648 : Nat) : Int) = -2147483648 := by decide
    have h2 : growthAdd 2147483648 (-2147483647) = 2 := by decide
    rw [h1, if_neg (by norm_num)]
    simp only [h2]
    rw [if_neg (by norm_num)]
    have h3 : (2147483648 + 2) % 4294967296 = 2147483650 := by norm_num
    rw [h3, pow2Loop_diverges_two 2147483650 (by norm_num) env.fuel]
  rw [hcapacity]
  rfl

theorem pushAll_not_ok (env : Env) (xs : List α) (o : Outcome (vec α))
    (h : ∀ w, o ≠ Outcome.ok w) :
    ∀ w, (o.bind fun u => pushAll env u xs) ≠ Outcome.ok w := by
  intro w
  cases o with
  | ok u => exact absurd rfl (h u)
  | badAlloc u => simp [Outcome.bind]
  | undefined => simp [Outcome.bind]
  | timeout => simp [Outcome.bind]

/-- More than `2^31` pushes onto an initially empty buffer never all return,
whatever the allocator and the fuel. -/
theorem pushAll_too_long (env : Env) (xs : List α) (v : vec α) (hS : IsPushCap v.cap)
    (hle : v.sz ≤ v.cap) (hlen : 2147483648 < v.sz + xs.length) :
    ∀ w, pushAll env v xs ≠ Outcome.ok w := by
  induction xs generalizing v with
  | nil =>
    have := IsPushCap_le v.cap hS
    simp at hlen
    omega
  | cons x xs ih =>
    intro w
    simp only [pushAll]
    have hcl := IsPushCap_le v.cap hS
    by_cases hsz : v.sz = 2147483648
    · rw [push_at_limit env v x hsz (by omega)]
      simp [Outcome.bind]
    · cases hp : push env v x with
      | ok u =>
        obtain ⟨husz, hule, huS, _, _⟩ := push_ok_inv env v u x hS hle (by omega) hp
        simp only [Outcome.bind]
        exact ih u huS hule (by simp only [List.length_cons] at hlen; omega) w
      | badAlloc u => simp [Outcome.bind]
      | undefined => simp [Outcome.bind]
      | timeout => simp [Outcome.bind]

theorem IsPushCap_zero : IsPushCap 0 := Or.inl rfl

theorem Inv_empty : Inv (empty : vec α) := by
  unfold Inv empty
  simp

/-- Within the planner's working range: for every list `xs` of at most `2^31`
values, with an allocator that answers every request and `32` units of fuel for
the planner, pushing the elements of `xs` in order onto a freshly constructed
buffer returns a buffer whose `size()` is the length of `xs` and whose element
at every index `i < length xs` is `xs[i]`. -/
theorem push_in_order (env : Env) (xs : List α) (halloc : env.allocOk)
    (hfuel : 32 ≤ env.fuel) (hlen : xs.length ≤ 2147483648) :
    ∃ w, pushAll env (empty : vec α) xs = Outcome.ok w ∧ size w = xs.length ∧
      ∀ i (h : i < xs.length), index w i = some (xs.get ⟨i, h⟩) := by
  obtain ⟨w, hw, _, _, hsz, hel⟩ := pushAll_returns env halloc hfuel xs empty Inv_empty
    IsPushCap_zero (by simpa [empty] using hlen)
  refine ⟨w, hw, by simpa [size, empty] using hsz, fun i h => index_of_elems w xs i h ?_⟩
  simpa [elems, empty] using hel

/-- The scenario `push(10)`, `push(20)`, `push(30)` on an empty buffer: size 3
and the elements `[10, 20, 30]`. -/
theorem push_in_order_witness :
    stdEnv.allocOk ∧ 32 ≤ stdEnv.fuel ∧ [10, 20, 30].length ≤ 2147483648 ∧
    ∃ w, pushAll stdEnv (empty : vec Nat) [10, 20, 30] = Outcome.ok w ∧
      size w = [10, 20, 30].length ∧
      ∀ i (h : i < [10, 20, 30].length), index w i = some ([10, 20, 30].get ⟨i, h⟩) :=
  ⟨fun _ => rfl, by decide, by decide,
   push_in_order stdEnv [10, 20, 30] (fun _ => rfl) (by decide) (by decide)⟩

theorem pushAll_append (env : Env) (xs ys : List α) (v : vec α) :
    pushAll env v (xs ++ ys) = (pushAll env v xs).bind fun w => pushAll env w ys := by
  induction xs generalizing v with
  | nil => rfl
  | cons x xs ih =>
    simp only [List.cons_append, pushAll]
    cases push env v x with
    | ok u => simp only [Outcome.bind]; exact ih u
    | badAlloc u => rfl
    | undefined => rfl
    | timeout => rfl

/-- With a working allocator and `32` units of fuel, `2^31` pushes onto an
empty buffer fill a block of exactly `2^31` slots, and one more push calls the
planner, whose search loop does not end. -/
theorem pushAll_beyond_limit (env : Env) (halloc : env.allocOk) (hfuel : 32 ≤ env.fuel)
    (xs : List α) (x : α) (hlen : xs.length = 2147483648) :
    pushAll env (empty : vec α) (xs ++ [x]) = Outcome.timeout := by
  obtain ⟨w, hw, hwinv, hwS, hwsz, _⟩ := pushAll_returns env halloc hfuel xs empty Inv_empty
    IsPushCap_zero (by rw [hlen]; show 0 + 2147483648 ≤ 2147483648; omega)
  have hsz : w.sz = 2147483648 := by
    rw [hwsz, hlen]
    show 0 + 2147483648 = 2147483648
    omega
  have hcap : w.cap = 2147483648 := by
    have h1 := hwinv.1
    have h2 := IsPushCap_le w.cap hwS
    omega
  rw [pushAll_append, hw]
  show (push env w x).bind (fun u => pushAll env u []) = Outcome.timeout
  rw [push_at_limit env w x hsz hcap]
  rfl

/-- C2. The claim fails for a list of `2^31 + 1` values: with the allocator
that answers every request, the first `2^31` pushes fill a block of `2^31`
slots and the last push enters the planner's search loop, which never ends;
and no allocator and no amount of fuel make the `2147483649` pushes all return,
so no buffer of size `2147483649` holding the list is ever produced. -/
theorem push_beyond_two_pow_31 :
    pushAll stdEnv (empty : vec Nat) (List.replicate 2147483648 0 ++ [0]) = Outcome.timeout ∧
    ¬ ∃ (env : Env) (w : vec Nat),
        pushAll env (empty : vec Nat) (List.replicate 2147483649 0) = Outcome.ok w := by
  refine ⟨pushAll_beyond_limit stdEnv (fun _ => rfl) (by decide) _ 0
    (List.length_replicate 2147483648 0), ?_⟩
  rintro ⟨env, w, h⟩
  have hlen : 2147483648 < (empty : vec Nat).sz + (List.replicate 2147483649 0).length := by
    rw [List.length_replicate]
    show 2147483648 < 0 + 2147483649
    omega
  exact pushAll_too_long env (List.replicate 2147483649 0) empty IsPushCap_zero
    (Nat.le_refl 0) hlen w h

/-! ## Requests beyond the `int32_t` range -/

theorem fillLoop_null (x : Option α) (k i : Nat) (v : vec α) (hd : v.data = none) :
    fillLoop x (k + 1) i v = Outcome.undefined := by
  unfold fillLoop storeAt
  rw [hd]
  rfl

theorem fillLoop_overrun (x : Option α) (k i : Nat) (v : vec α) (blk : Block α)
    (hd : v.data = some blk) (hi : i ≤ blk.length) (hlen : blk.length < i + k) :
    fillLoop x k i v = Outcome.undefined := by
  induction k generalizing i v blk with
  | zero => omega
  | succ k ih =>
    unfold fillLoop
    by_cases hlt : i < blk.length
    · rw [storeAt_ok v blk i x hd hlt]
      simp only [Outcome.bind]
      exact ih (i + 1) _ (blk.set i x) rfl (by simp; omega) (by simp; omega)
    · unfold storeAt
      rw [hd]
      simp only
      rw [if_neg hlt]
      rfl

/-- A request `n ≥ 2^31` reaches `capacity` as a negative `int32_t`: on a
buffer satisfying the invariants whose capacity is below `2^31`, `capacity`
returns at once and the fill loop of `growTo(n, pad)` leaves the block. -/
theorem growToPad_beyond (env : Env) (v : vec α) (n : Nat) (pad : α) (hinv : Inv v)
    (hcap : v.cap < 2147483648) (hn : 2147483648 ≤ n) (hn2 : n ≤ 4294967295) :
    capacity env v (toInt32 n) = Outcome.ok v ∧
    growToPad env v n pad = Outcome.undefined := by
  have hneg : toInt32 (n : Int) < 0 := by unfold toInt32; omega
  have hcapa : capacity env v (toInt32 n) = Outcome.ok v := by
    unfold capacity
    rw [toInt32_id (v.cap : Int) (by omega) (by omega), if_pos (by omega)]
  refine ⟨hcapa, ?_⟩
  unfold growToPad
  have hle := hinv.1
  rw [if_neg (by omega), hcapa]
  simp only [Outcome.bind]
  cases hd : v.data with
  | none =>
    obtain ⟨k, hk⟩ : ∃ k, n - v.sz = k + 1 := ⟨n - v.sz - 1, by omega⟩
    rw [hk, fillLoop_null _ k v.sz v hd]
  | some blk =>
    obtain ⟨hlen, _, _⟩ := Inv_some v blk hinv hd
    rw [fillLoop_overrun _ (n - v.sz) v.sz v blk hd (by omega) (by omega)]

/-- C3, at a failing input. `growTo(2147483648, 99)` on the buffer `[10,20,30]`
of capacity 4: `capacity` receives `-2147483648`, returns without growing, and
the pad loop stores past the four slots of the block. -/
theorem growToPad_beyond_int32 (env : Env) :
    capacity env ({ data := some [some 10, some 20, some 30, none], sz := 3, cap := 4 } : vec Nat)
        (toInt32 2147483648)
      = Outcome.ok { data := some [some 10, some 20, some 30, none], sz := 3, cap := 4 } ∧
    growToPad env ({ data := some [some 10, some 20, some 30, none], sz := 3, cap := 4 } : vec Nat)
      2147483648 99 = Outcome.undefined :=
  ⟨rfl, rfl⟩

/-- C4, at a failing input. `growTo(2147483648)` on a one-element buffer of
capacity 2: the call of `capacity` inside `growTo` returns with the capacity
still 2, below the request, and the construction loop leaves the block. -/
theorem growTo_beyond_int32 (env : Env) :
    (∃ w, capacity env ({ data := some [some 7, none], sz := 1, cap := 2 } : vec Nat)
        (toInt32 2147483648) = Outcome.ok w ∧ w.cap = 2 ∧ w.cap < 2147483648) ∧
    growTo env ({ data := some [some 7, none], sz := 1, cap := 2 } : vec Nat) 2147483648
      = Outcome.undefined :=
  ⟨⟨_, rfl, rfl, by decide⟩, rfl⟩

/-! ## `growTo` on a buffer that is large enough -/

theorem growToPad_size (env : Env) (v w : vec α) (n : Nat) (pad : α)
    (h : growToPad env v n pad = Outcome.ok w) : n ≤ w.sz := by
  unfold growToPad at h
  split_ifs at h with hsz
  · simp only [Outcome.ok.injEq] at h
    subst h
    exact hsz
  · cases hc : (capacity env v (toInt32 n)).bind (fillLoop (some pad) (n - v.sz) v.sz) with
    | ok u =>
      rw [hc] at h
      simp only [Outcome.bind, Outcome.ok.injEq] at h
      subst h
      exact le_refl _
    | badAlloc u => rw [hc] at h; simp [Outcome.bind] at h
    | undefined => rw [hc] at h; simp [Outcome.bind] at h
    | timeout => rw [hc] at h; simp [Outcome.bind] at h

/-- C5. `growTo` is a no-op once the buffer is large enough: for `n ≤ size()`
both overloads return the buffer unchanged (same size, capacity and slots);
and for every `n`, `growTo(n)` followed by `growTo(n)` has the outcome of a
single `growTo(n)`. -/
theorem growTo_idempotent [Inhabited α] (env env2 : Env) (v : vec α) (n : Nat) (pad : α) :
    (n ≤ size v → growTo env v n = Outcome.ok v ∧ growToPad env v n pad = Outcome.ok v) ∧
    (growTo env v n).bind (fun w => growTo env2 w n) = growTo env v n := by
  constructor
  · intro h
    unfold growTo growToPad
    unfold size at h
    rw [if_pos h, if_pos h]
    exact ⟨rfl, rfl⟩
  · cases hg : growTo env v n with
    | ok w =>
      simp only [Outcome.bind]
      have hsz := growToPad_size env v w n default hg
      unfold growTo
      rw [if_pos hsz]
    | badAlloc u => rfl
    | undefined => rfl
    | timeout => rfl

/-- C5, at a concrete input: `growTo(2)` and `growTo(2, 99)` on `[10,20,30]`. -/
theorem growTo_idempotent_witness :
    growTo stdEnv ({ data := some [some 10, some 20, some 30, none], sz := 3, cap := 4 } : vec Nat) 2
      = Outcome.ok { data := some [some 10, some 20, some 30, none], sz := 3, cap := 4 } ∧
    growToPad stdEnv ({ data := some [some 10, some 20, some 30, none], sz := 3, cap := 4 } : vec Nat)
      2 99 = Outcome.ok { data := some [some 10, some 20, some 30, none], sz := 3, cap := 4 } :=
  (growTo_idempotent stdEnv stdEnv
    ({ data := some [some 10, some 20, some 30, none], sz := 3, cap := 4 } : vec Nat) 2 99).1
    (by decide)

/-! ## Clearing and transfer -/

/-- The result of `clear` on a buffer satisfying the invariants: without
`dealloc` the block stays, its slots `[0, sz)` destroyed; with `dealloc` the
buffer is `NULL, 0, 0`. -/
theorem clear_eq (v : vec α) (hinv : Inv v) :
    clear v false = Outcome.ok
      { data := v.data.map fun blk => List.replicate v.sz none ++ blk.drop v.sz,
        sz := 0, cap := v.cap } ∧
    clear v true = Outcome.ok { data := none, sz := 0, cap := 0 } := by
  unfold clear
  cases hd : v.data with
  | none =>
    obtain ⟨hc, hs⟩ := Inv_none v hinv hd
    simp only [Option.map_none']
    constructor
    · cases v; simp_all
    · cases v; simp_all
  | some blk =>
    obtain ⟨hlen, _, _⟩ := Inv_some v blk hinv hd
    have hle := hinv.1
    simp only
    rw [fillLoop_ok none v.sz 0 v blk hd (by omega)]
    simp [Outcome.bind]

/-- C6. On a buffer satisfying the invariants, `clear(false)` returns with
size 0, the capacity unchanged and the storage block kept (present exactly when
it was, with the same number of slots); `clear(true)` returns with size 0,
capacity 0 and no storage block, the Empty state. -/
theorem clear_spec (v : vec α) (hinv : Inv v) :
    (∃ w, clear v false = Outcome.ok w ∧ size w = 0 ∧ getCapacity w = getCapacity v ∧
      w.data.isSome = v.data.isSome ∧ w.data.map List.length = v.data.map List.length) ∧
    (∃ w, clear v true = Outcome.ok w ∧ size w = 0 ∧ getCapacity w = 0 ∧ w.data = none) := by
  obtain ⟨hfalse, htrue⟩ := clear_eq v hinv
  refine ⟨⟨_, hfalse, rfl, rfl, ?_, ?_⟩, ⟨_, htrue, rfl, rfl, rfl⟩⟩
  · cases hd : v.data <;> rfl
  · cases hd : v.data with
    | none => rfl
    | some blk =>
      obtain ⟨hlen, _, _⟩ := Inv_some v blk hinv hd
      have hle := hinv.1
      simp only [Option.map_some', Option.some.injEq, List.length_append, List.length_replicate,
        List.length_drop]
      omega

/-- C6, at a concrete input: the buffer `[10,20,30]` of capacity 4. -/
theorem clear_spec_witness :
    Inv ({ data := some [some 10, some 20, some 30, none], sz := 3, cap := 4 } : vec Nat) ∧
    (∃ w, clear ({ data := some [some 10, some 20, some 30, none], sz := 3, cap := 4 } : vec Nat)
        false = Outcome.ok w ∧ size w = 0 ∧ getCapacity w = 4 ∧ w.data.isSome = true ∧
        w.data.map List.length = some 4) ∧
    (∃ w, clear ({ data := some [some 10, some 20, some 30, none], sz := 3, cap := 4 } : vec Nat)
        true = Outcome.ok w ∧ size w = 0 ∧ getCapacity w = 0 ∧ w.data = none) :=
  ⟨by decide,
   clear_spec ({ data := some [some 10, some 20, some 30, none], sz := 3, cap := 4 } : vec Nat)
     (by decide)⟩

/-- C8. For every source `a` and every destination `b` satisfying the
invariants, `a.moveTo(b)` returns with the source in the Empty state
(`data = NULL`, `sz = 0`, `cap = 0`) and the destination holding exactly the
former storage block, size and capacity of `a`, whatever `b` held. -/
theorem moveTo_spec (a b : vec α) (hb : Inv b) :
    moveTo a b = Outcome.ok (({ data := none, sz := 0, cap := 0 } : vec α), a) := by
  unfold moveTo
  rw [(clear_eq b hb).2]
  rfl

/-- C8, at a concrete input: a source of four elements and a destination
holding `[10,20,30]`. -/
theorem moveTo_spec_witness :
    Inv ({ data := some [some 10, some 20, some 30, none], sz := 3, cap := 4 } : vec Nat) ∧
    moveTo ({ data := some [some 1, some 2, some 3, some 4], sz := 4, cap := 4 } : vec Nat)
        { data := some [some 10, some 20, some 30, none], sz := 3, cap := 4 }
      = Outcome.ok ({ data := none, sz := 0, cap := 0 },
                    { data := some [some 1, some 2, some 3, some 4], sz := 4, cap := 4 }) :=
  ⟨by decide,
   moveTo_spec ({ data := some [some 1, some 2, some 3, some 4], sz := 4, cap := 4 } : vec Nat)
     { data := some [some 10, some 20, some 30, none], sz := 3, cap := 4 } (by decide)⟩

/-- C9. `a.swap(b)` leaves in each buffer the storage block, size and capacity
the other had, and a second `a.swap(b)` restores both buffers. -/
theorem swap_involution (a b : vec α) :
    swap a b = (b, a) ∧ swap (swap a b).1 (swap a b).2 = (a, b) :=
  ⟨rfl, rfl⟩

/-! ## Shrinking, and buffers of capacity `2^31` -/

theorem drop_set_self (blk : Block α) (i : Nat) (x : Option α) (hi : i < blk.length) :
    (blk.set i x).drop i = x :: blk.drop (i + 1) := by
  rw [List.set_eq_take_append_cons_drop, if_pos hi]
  have hl : (blk.take i).length = i := by simp; omega
  exact List.drop_left' hl

theorem take_set_le (blk : Block α) (m n : Nat) (x : Option α) (h : m ≤ n) :
    (blk.set n x).take m = blk.take m := by
  apply List.ext_getElem?
  intro j
  by_cases hj : j < m
  · rw [List.getElem?_take_of_lt hj, List.getElem?_take_of_lt hj,
      List.getElem?_set_ne (by omega)]
  · rw [List.getElem?_eq_none (by simp; omega), List.getElem?_eq_none (by simp; omega)]

theorem shrinkLoop_ok (k : Nat) (v : vec α) (blk : Block α) (hd : v.data = some blk)
    (hk : k ≤ v.sz) (hsz : v.sz ≤ blk.length) :
    shrinkLoop k v = Outcome.ok
      { data := some (blk.take (v.sz - k) ++ List.replicate k none ++ blk.drop v.sz),
        sz := v.sz - k, cap := v.cap } := by
  induction k generalizing v blk with
  | zero =>
    simp only [shrinkLoop, Nat.sub_zero, List.replicate_zero, List.append_nil,
      List.take_append_drop]
    cases v; simp_all
  | succ k ih =>
    unfold shrinkLoop
    rw [storeAt_ok { v with sz := v.sz - 1 } blk (v.sz - 1) none hd (by omega)]
    simp only [Outcome.bind]
    rw [ih _ (blk.set (v.sz - 1) none) rfl (by show k ≤ v.sz - 1; omega)
      (by rw [List.length_set]; show v.sz - 1 ≤ blk.length; omega)]
    simp only
    have h1 : v.sz - 1 - k = v.sz - (k + 1) := by omega
    rw [h1, take_set_le blk (v.sz - (k + 1)) (v.sz - 1) none (by omega),
      drop_set_self blk (v.sz - 1) none (by omega)]
    have h2 : v.sz - 1 + 1 = v.sz := by omega
    rw [h2, List.replicate_succ']
    simp

/-- With the capacity at `2^31` the cast `(int32_t)cap` is `-2^31`: a request
`1 ≤ M ≤ 2^31 - 2`, although covered by the capacity, takes the growing path,
where the increment computed in `int32_t` is negative and the overflow check
throws. -/
theorem capacity_spurious_throw (env : Env) (v : vec α) (M : Int) (hcap : v.cap = 2147483648)
    (h1 : 1 ≤ M) (h2 : M ≤ 2147483646) : capacity env v M = Outcome.badAlloc v := by
  have hc : toInt32 ((2147483648 : Nat) : Int) = -2147483648 := by decide
  have hadd : 3221225474 ≤ growthAdd 2147483648 M := by
    unfold growthAdd
    rw [hc, sar32_one]
    have e1 : toInt32 (M - -2147483648) = M - 2147483648 := by unfold toInt32; omega
    have e2 : toInt32 (M - 2147483648 + 1) = M - 2147483647 := by unfold toInt32; omega
    have e3 : toInt32 ((-2147483648 : Int) / 2 + 2) = -1073741822 := by decide
    rw [e1, e2, e3, and32_not_one _ (by omega) (by omega), and32_not_one _ (by omega) (by omega)]
    rw [imax_eq _ _ (by omega) (by omega) (by omega) (by omega)]
    have e4 : toInt32 ((-1073741822 : Int) - -1073741822 % 2
        - (M - 2147483647 - (M - 2147483647) % 2))
        = (-1073741822 : Int) - -1073741822 % 2 - (M - 2147483647 - (M - 2147483647) % 2) :=
      toInt32_id _ (by omega) (by omega)
    rw [e4]
    have hcast := toUInt32_cast
      (if (-1073741822 : Int) - -1073741822 % 2 - (M - 2147483647 - (M - 2147483647) % 2) < 0
        then M - 2147483647 - (M - 2147483647) % 2 else -1073741822 - -1073741822 % 2)
    split_ifs at hcast ⊢ with hlt <;> omega
  unfold capacity
  rw [hcap, hc, if_neg (by omega)]
  simp only
  rw [if_pos (by omega)]

theorem fillLoop_fields (x : Option α) (k i : Nat) (v w : vec α)
    (h : fillLoop x k i v = Outcome.ok w) : w.sz = v.sz ∧ w.cap = v.cap := by
  induction k generalizing i v with
  | zero =>
    simp only [fillLoop, Outcome.ok.injEq] at h
    subst h
    exact ⟨rfl, rfl⟩
  | succ k ih =>
    unfold fillLoop at h
    cases hs : storeAt v i x with
    | ok u =>
      rw [hs] at h
      obtain ⟨blk, _, _, hu⟩ := storeAt_inv v u i x hs
      have := ih (i + 1) u h
      rw [hu] at this
      exact this
    | badAlloc u => rw [hs] at h; simp [Outcome.bind] at h
    | undefined => rw [hs] at h; simp [Outcome.bind] at h
    | timeout => rw [hs] at h; simp [Outcome.bind] at h

/-- A growing `growTo(n, pad)` that returns has the capacity its call of
`capacity` returned. -/
theorem growToPad_ok_cap (env : Env) (v w : vec α) (n : Nat) (pad : α) (hsz : v.sz < n)
    (h : growToPad env v n pad = Outcome.ok w) :
    ∃ u, capacity env v (toInt32 n) = Outcome.ok u ∧ w.cap = u.cap := by
  unfold growToPad at h
  rw [if_neg (by omega)] at h
  cases hc : capacity env v (toInt32 n) with
  | ok u =>
    rw [hc] at h
    simp only [Outcome.bind] at h
    cases hf : fillLoop (some pad) (n - v.sz) v.sz u with
    | ok t =>
      rw [hf] at h
      simp only [Outcome.ok.injEq] at h
      subst h
      exact ⟨u, rfl, (fillLoop_fields _ _ _ u t hf).2⟩
    | badAlloc t => rw [hf] at h; simp at h
    | undefined => rw [hf] at h; simp at h
    | timeout => rw [hf] at h; simp at h
  | badAlloc u => rw [hc] at h; simp [Outcome.bind] at h
  | undefined => rw [hc] at h; simp [Outcome.bind] at h
  | timeout => rw [hc] at h; simp [Outcome.bind] at h

/-- A capacity of `2^31` is reached through the interface: `growTo(1073741825)`
on an empty buffer returns with `2^31` slots (the candidate `1073741826` is
rounded up to `2^31`, and `new_size * 2` wraps to `0` in the de-waste test). -/
theorem growTo_reaches_two_pow_31 [Inhabited α] (env : Env) (halloc : env.allocOk)
    (hfuel : 32 ≤ env.fuel) :
    ∃ w, growTo env (empty : vec α) 1073741825 = Outcome.ok w ∧ w.sz = 1073741825 ∧
      w.cap = 2147483648 ∧ Inv w := by
  obtain ⟨w, hw, hsz, _, _, _, _, hinv⟩ := growToPad_returns env (empty : vec α) 1073741825
    default Inv_empty halloc hfuel (by norm_num) (by simp [empty]) (by simp [empty])
  refine ⟨w, hw, by simpa [empty] using hsz, ?_, hinv⟩
  obtain ⟨u, hu, hcap⟩ := growToPad_ok_cap env empty w 1073741825 default (by simp [empty]) hw
  have hM : toInt32 ((1073741825 : Nat) : Int) = 1073741825 := by decide
  rw [hM] at hu
  have ht : growthAdd 0 1073741825 ≤ 4294967295 - 0 ∧
      pow2Loop 32 2 (0 + growthAdd 0 1073741825) = some 2147483648 ∧
      dewaste 2147483648 (0 + growthAdd 0 1073741825) = 2147483648 := by decide
  have := capacity_ok_inv env empty u 1073741825 2147483648 (by simp [empty]) (by simp [empty])
    ht.1 ht.2.1 hu
  rw [hcap, this.1]
  exact ht.2.2

/-- On a buffer satisfying the invariants whose capacity is `2^31`,
`shrink(k)` followed by `growTo(size() + k)` throws `std::bad_alloc` for every
`1 ≤ k ≤ sz ≤ 2^31 - 2`, although the capacity covers the request. -/
theorem shrink_growTo_throws [Inhabited α] (env : Env) (v : vec α) (k : Nat) (hinv : Inv v)
    (hcap : v.cap = 2147483648) (hk1 : 1 ≤ k) (hk : k ≤ v.sz) (hsz : v.sz ≤ 2147483646) :
    ∃ u, shrink v k = Outcome.ok u ∧ u.sz = v.sz - k ∧ u.cap = v.cap ∧
      growTo env u (toUInt32 (u.sz + k)) = Outcome.badAlloc u := by
  obtain ⟨blk, hd⟩ := Inv_data_of_pos v hinv (by omega)
  obtain ⟨hlen, _, _⟩ := Inv_some v blk hinv hd
  have hle := hinv.1
  refine ⟨{ data := some (blk.take (v.sz - k) ++ List.replicate k none ++ blk.drop v.sz),
            sz := v.sz - k, cap := v.cap }, ?_, rfl, rfl, ?_⟩
  · unfold shrink
    rw [if_pos hk]
    exact shrinkLoop_ok k v blk hd hk (by omega)
  · have key : ∀ u : vec α, u.cap = 2147483648 → u.sz = v.sz - k →
        growTo env u (toUInt32 (u.sz + k)) = Outcome.badAlloc u := by
      intro u hucap husz
      have hreq : toUInt32 ((u.sz : Int) + k) = v.sz := by
        rw [husz]; unfold toUInt32; omega
      rw [hreq]
      unfold growTo
      rw [if_neg (by omega)]
      rw [capacity_spurious_throw env u (toInt32 v.sz) hucap
        (by rw [toInt32_id _ (by omega) (by omega)]; omega)
        (by rw [toInt32_id _ (by omega) (by omega)]; omega)]
      rfl
    exact key _ hcap rfl

/-- C10, at a failing input. The buffer that `growTo(1073741825)` returns on an
empty buffer has capacity `2^31`; on it `shrink(1)` followed by
`growTo(size() + 1)` throws `std::bad_alloc` and leaves the size at
`1073741824`, one short of the size before the shrink. -/
theorem shrink_growTo_at_two_pow_31 :
    ∃ v : vec Nat, growTo stdEnv (empty : vec Nat) 1073741825 = Outcome.ok v ∧
      v.sz = 1073741825 ∧ v.cap = 2147483648 ∧
      ∃ u, shrink v 1 = Outcome.ok u ∧
        growTo stdEnv u (toUInt32 (u.sz + 1)) = Outcome.badAlloc u ∧ u.sz = 1073741824 := by
  obtain ⟨v, hv, hsz, hcap, hinv⟩ :=
    @growTo_reaches_two_pow_31 Nat _ stdEnv (fun _ => rfl) (by decide)
  obtain ⟨u, hu, husz, _, hg⟩ := shrink_growTo_throws stdEnv v 1 hinv hcap (le_refl _)
    (by omega) (by omega)
  exact ⟨v, hv, hsz, hcap, u, hu, hg, by omega⟩

/-- On a destination satisfying the invariants whose capacity is `2^31`,
`copyTo` from a source of `1 ≤ sz ≤ 2^31 - 2` elements throws
`std::bad_alloc` after clearing the destination, although the destination has
room for the source. -/
theorem copyTo_throws [Inhabited α] (env : Env) (src dest : vec α) (hinv : Inv dest)
    (hcap : dest.cap = 2147483648) (h1 : 1 ≤ src.sz) (h2 : src.sz ≤ 2147483646) :
    ∃ d, clear dest false = Outcome.ok d ∧ d.sz = 0 ∧ d.cap = dest.cap ∧
      copyTo env src dest = Outcome.badAlloc (src, d) := by
  have hclear := (clear_eq dest hinv).1
  refine ⟨_, hclear, rfl, rfl, ?_⟩
  unfold copyTo
  rw [hclear]
  simp only [Outcome.bind]
  have key : ∀ u : vec α, u.cap = 2147483648 → u.sz = 0 →
      growTo env u src.sz = Outcome.badAlloc u := by
    intro u hucap husz
    unfold growTo
    rw [if_neg (by omega)]
    rw [capacity_spurious_throw env u (toInt32 src.sz) hucap
      (by rw [toInt32_id _ (by omega) (by omega)]; omega)
      (by rw [toInt32_id _ (by omega) (by omega)]; omega)]
    rfl
  rw [key { data := dest.data.map fun blk => List.replicate dest.sz none ++ blk.drop dest.sz,
            sz := 0, cap := dest.cap } hcap rfl]
  rfl

/-- C7, at a failing input. The destination is the buffer that
`growTo(1073741825)` returns on an empty buffer (capacity `2^31`), the source
is the one-element buffer `[7]`: `copyTo` throws `std::bad_alloc`, leaving the
destination with size 0 instead of a copy of the source. -/
theorem copyTo_into_two_pow_31 :
    ∃ dest : vec Nat, growTo stdEnv (empty : vec Nat) 1073741825 = Outcome.ok dest ∧
      dest.cap = 2147483648 ∧
      ∃ d, copyTo stdEnv ({ data := some [some 7, none], sz := 1, cap := 2 } : vec Nat) dest
          = Outcome.badAlloc (({ data := some [some 7, none], sz := 1, cap := 2 } : vec Nat), d) ∧
        d.sz = 0 := by
  obtain ⟨dest, hv, _, hcap, hinv⟩ :=
    @growTo_reaches_two_pow_31 Nat _ stdEnv (fun _ => rfl) (by decide)
  obtain ⟨d, _, hdsz, _, hc⟩ := copyTo_throws stdEnv
    ({ data := some [some 7, none], sz := 1, cap := 2 } : vec Nat) dest hinv hcap
    (le_refl _) (by decide)
  exact ⟨dest, hv, hcap, d, hc, hdsz⟩

/-! ## In-range behaviour of `shrink` + `growTo` and of `copyTo` -/

theorem Inv_mk (blk : Block α) (sz cap : Nat) (hle : sz ≤ cap) (hcap : cap ≤ 4294967295)
    (hpos : 0 < cap) (hlen : blk.length = cap)
    (hall : (blk.take sz).all Option.isSome = true) :
    Inv ({ data := some blk, sz := sz, cap := cap } : vec α) :=
  ⟨hle, hcap, hpos, hlen, hall⟩

theorem all_take_of_le (l : Block α) (m n : Nat) (hmn : m ≤ n)
    (h : (l.take n).all Option.isSome = true) : (l.take m).all Option.isSome = true := by
  have e : l.take m = (l.take n).take m := by rw [List.take_take, Nat.min_eq_left hmn]
  rw [e]
  rw [List.all_eq_true] at h ⊢
  intro x hx
  exact h x (List.mem_of_mem_take hx)

/-- When the capacity (below `2^31`) already covers `n`, `growTo(n, pad)`
returns without calling the allocator, whatever the environment. -/
theorem growToPad_within (env : Env) (v : vec α) (n : Nat) (pad : α) (hinv : Inv v)
    (hcap31 : v.cap < 2147483648) (hn : n ≤ v.cap) :
    ∃ w, growToPad env v n pad = Outcome.ok w ∧ w.sz = max v.sz n ∧ w.cap = v.cap ∧
      elems w = elems v ++ List.replicate (n - v.sz) (some pad) ∧ Inv w := by
  unfold growToPad
  by_cases hsz : v.sz ≥ n
  · rw [if_pos hsz]
    refine ⟨v, rfl, by omega, rfl, ?_, hinv⟩
    have : n - v.sz = 0 := by omega
    simp [this]
  · rw [if_neg hsz]
    rw [capacity_noop env v (toInt32 n) hcap31
          (by rw [toInt32_id _ (by omega) (by omega)]; exact_mod_cast hn)]
    obtain ⟨blk, hd⟩ := Inv_data_of_pos v hinv (by omega)
    obtain ⟨hlen, hpos, hall⟩ := Inv_some v blk hinv hd
    simp only [Outcome.bind]
    have ht := fill_tail pad v blk n hd (by omega) (by omega)
    simp only [Outcome.bind] at ht
    rw [ht]
    have htake : (blk.take v.sz ++ List.replicate (n - v.sz) (some pad) ++ blk.drop n).take n
        = blk.take v.sz ++ List.replicate (n - v.sz) (some pad) := by
      rw [List.take_append_of_le_length (by simp; omega)]
      rw [List.take_of_length_le (by simp; omega)]
    refine ⟨_, rfl, by simp; omega, rfl, ?_, ?_⟩
    · simp only [elems, hd, Option.getD_some]
      exact htake
    · apply Inv_mk _ _ _ hn hinv.2.1 hpos (by simp; omega)
      rw [htake]
      simp only [List.all_append, Bool.and_eq_true]
      exact ⟨hall, by simp⟩

/-- In range `shrink(k)` followed by `growTo(size() + k)` returns: on a buffer
satisfying the invariants with a capacity below `2^31` and `k ≤ sz`, both calls
return, whatever the environment; the size and the capacity are those before
the shrink, the first `sz - k` elements are the original ones and the last `k`
are default-constructed. -/
theorem shrink_growTo_returns [Inhabited α] (env : Env) (v : vec α) (k : Nat) (hinv : Inv v)
    (hcap31 : v.cap < 2147483648) (hk : k ≤ v.sz) :
    ∃ u w, shrink v k = Outcome.ok u ∧ growTo env u (toUInt32 (u.sz + k)) = Outcome.ok w ∧
      w.sz = v.sz ∧ w.cap = v.cap ∧
      elems w = (elems v).take (v.sz - k) ++ List.replicate k (some default) := by
  have hle := hinv.1
  cases hd : v.data with
  | none =>
    obtain ⟨hc, hs⟩ := Inv_none v hinv hd
    have hk0 : k = 0 := by omega
    subst hk0
    refine ⟨v, v, ?_, ?_, rfl, rfl, ?_⟩
    · unfold shrink
      rw [if_pos (by omega)]
      rfl
    · have hreq : toUInt32 ((v.sz : Int) + (0 : Nat)) = 0 := by rw [hs]; decide
      rw [hreq]
      unfold growTo
      rw [if_pos (by omega)]
    · simp [elems, hd]
  | some blk =>
    obtain ⟨hlen, hpos, hall⟩ := Inv_some v blk hinv hd
    have hshrink : shrink v k = Outcome.ok
        { data := some (blk.take (v.sz - k) ++ List.replicate k none ++ blk.drop v.sz),
          sz := v.sz - k, cap := v.cap } := by
      unfold shrink
      rw [if_pos hk]
      exact shrinkLoop_ok k v blk hd hk (by omega)
    have htake : (blk.take (v.sz - k) ++ List.replicate k none ++ blk.drop v.sz).take (v.sz - k)
        = blk.take (v.sz - k) := by
      rw [List.append_assoc, List.take_append_of_le_length (by simp; omega)]
      rw [List.take_of_length_le (by simp)]
    have huinv : Inv ({ data := some (blk.take (v.sz - k) ++ List.replicate k none
        ++ blk.drop v.sz), sz := v.sz - k, cap := v.cap } : vec α) := by
      apply Inv_mk _ _ _ (by omega) hinv.2.1 hpos (by simp; omega)
      rw [htake]
      exact all_take_of_le blk _ _ (by omega) hall
    obtain ⟨w, hw, hwsz, hwcap, hwel, _⟩ := growToPad_within env _ v.sz default huinv
      hcap31 (by show v.sz ≤ v.cap; exact hle)
    refine ⟨_, w, hshrink, ?_, by simp only at hwsz; omega, hwcap, ?_⟩
    · have hreq : toUInt32 (((v.sz - k : Nat) : Int) + (k : Nat)) = v.sz := by
        unfold toUInt32; omega
      simp only
      rw [hreq]
      exact hw
    · rw [hwel]
      simp only [elems, hd, Option.getD_some]
      rw [htake, List.take_take, Nat.min_eq_left (by omega)]
      congr 2
      omega

theorem loadAt_live (src : vec α) (sblk : Block α) (i : Nat) (hsd : src.data = some sblk)
    (hall : (sblk.take src.sz).all Option.isSome = true) (hi : i < src.sz)
    (hlen : src.sz ≤ sblk.length) :
    ∃ x, loadAt src i = some x ∧ sblk[i]? = some (some x) := by
  have hil : i < sblk.length := by omega
  have hmem : sblk[i] ∈ sblk.take src.sz := by
    rw [List.mem_take_iff_getElem]
    exact ⟨i, by simp; omega, rfl⟩
  rw [List.all_eq_true] at hall
  have hsome := hall _ hmem
  cases hx : sblk[i] with
  | none => rw [hx] at hsome; simp at hsome
  | some x =>
    refine ⟨x, ?_, ?_⟩
    · unfold loadAt
      rw [hsd]
      simp only [List.get?_eq_getElem?]
      rw [List.getElem?_eq_getElem hil, hx]
      rfl
    · rw [List.getElem?_eq_getElem hil, hx]

theorem copyLoop_ok (src : vec α) (sblk : Block α) (hsd : src.data = some sblk)
    (hall : (sblk.take src.sz).all Option.isSome = true) (hslen : src.sz ≤ sblk.length)
    (k i : Nat) (c : vec α) (cblk : Block α) (hcd : c.data = some cblk)
    (hik : i + k ≤ cblk.length) (hik2 : i + k ≤ src.sz) :
    copyLoop src k i c = Outcome.ok
      { c with data := some (cblk.take i ++ (sblk.drop i).take k ++ cblk.drop (i + k)) } := by
  induction k generalizing i c cblk with
  | zero =>
    simp only [copyLoop, List.take_zero, List.append_nil, add_zero, List.take_append_drop]
    cases c; simp_all
  | succ k ih =>
    unfold copyLoop
    obtain ⟨x, hx, hxs⟩ := loadAt_live src sblk i hsd hall (by omega) hslen
    rw [hx]
    simp only
    rw [storeAt_ok c cblk i (some x) hcd (by omega)]
    simp only [Outcome.bind]
    rw [ih (i + 1) _ (cblk.set i (some x)) rfl (by simp; omega) (by omega)]
    congr 3
    rw [set_take_succ cblk i (some x) (by omega), List.drop_set_of_lt _ _ (by omega)]
    have hdrop : sblk.drop i = some x :: sblk.drop (i + 1) := by
      have hil : i < sblk.length := by omega
      rw [List.drop_eq_getElem_cons hil]
      congr 1
      rw [List.getElem?_eq_getElem hil] at hxs
      exact Option.some.inj hxs
    rw [hdrop, List.take_succ_cons]
    simp [Nat.add_assoc, Nat.add_comm 1 k]

/-- In range `copyTo` returns: for a source and a destination satisfying the
invariants, a source of at most `2^31 - 1` elements, a destination capacity
below `2^31` (at most `1431655764` when it has to grow), a working allocator
and enough fuel, `src.copyTo(dest)` returns with the source unchanged and a
destination of the source's size holding the source's elements in order. -/
theorem copyTo_returns [Inhabited α] (env : Env) (src dest : vec α) (hsrc : Inv src)
    (hdest : Inv dest) (halloc : env.allocOk) (hfuel : 32 ≤ env.fuel)
    (hn : src.sz ≤ 2147483647) (hcap31 : dest.cap < 2147483648)
    (hC : dest.cap < src.sz → dest.cap ≤ 1431655764) :
    ∃ d, copyTo env src dest = Outcome.ok (src, d) ∧ size d = size src ∧
      elems d = elems src ∧ Inv d := by
  have hclear := (clear_eq dest hdest).1
  have hd0 : Inv ({ data := dest.data.map
                      (fun blk => List.replicate dest.sz none ++ blk.drop dest.sz),
                    sz := 0, cap := dest.cap } : vec α) := by
    cases hdd : dest.data with
    | none =>
      have := Inv_none dest hdest hdd
      unfold Inv
      simp [this.1]
    | some blk =>
      obtain ⟨hlen, hpos, _⟩ := Inv_some dest blk hdest hdd
      have := hdest.1
      simp only [Option.map_some']
      exact Inv_mk _ _ _ (by omega) hdest.2.1 hpos (by simp; omega) (by simp)
  obtain ⟨d1, hd1, hd1sz, hd1cap, _, _, _, hd1inv⟩ := growToPad_returns env _ src.sz default hd0
    halloc hfuel hn hcap31 hC
  have hd1sz' : d1.sz = src.sz := by simpa using hd1sz
  unfold copyTo
  rw [hclear]
  simp only [Outcome.bind]
  rw [growTo_eq_growToPad, hd1]
  simp only
  by_cases hz : src.sz = 0
  · rw [hz]
    simp only [copyLoop, Outcome.map]
    refine ⟨d1, rfl, by simp [size, hd1sz', hz], ?_, hd1inv⟩
    simp [elems, hd1sz', hz]
  · have hsle := hsrc.1
    obtain ⟨sblk, hsd⟩ := Inv_data_of_pos src hsrc (by omega)
    obtain ⟨hslen, _, hsall⟩ := Inv_some src sblk hsrc hsd
    obtain ⟨cblk, hcd⟩ := Inv_data_of_pos d1 hd1inv (by omega)
    obtain ⟨hclen, hcpos, _⟩ := Inv_some d1 cblk hd1inv hcd
    rw [copyLoop_ok src sblk hsd hsall (by omega) src.sz 0 d1 cblk hcd (by omega) (by omega)]
    simp only [Outcome.map, List.take_zero, List.nil_append, List.drop_zero, zero_add]
    have htake : (sblk.take src.sz ++ cblk.drop src.sz).take src.sz = sblk.take src.sz := by
      rw [List.take_append_of_le_length (by simp; omega)]
      rw [List.take_of_length_le (by simp)]
    refine ⟨_, rfl, by simp [size, hd1sz'], ?_, ?_⟩
    · simp only [elems, Option.getD_some, hd1sz', hsd]
      exact htake
    · have hd1le := hd1inv.1
      apply Inv_mk _ _ _ hd1le hd1inv.2.1 hcpos (by simp; omega)
      rw [hd1sz', htake]
      exact hsall

/-! ## Failed growth -/

/-- The overflow check of `capacity` throws before any field is written. -/
theorem capacity_overflow_unchanged (env : Env) (v : vec α) (M : Int)
    (hlt : ¬ toInt32 (v.cap : Int) ≥ M) (hov : growthAdd v.cap M > 4294967295 - v.cap) :
    capacity env v M = Outcome.badAlloc v := by
  unfold capacity
  rw [if_neg hlt]
  simp only
  rw [if_pos hov]

/-- A throw of `capacity` either comes from the overflow check, with the buffer
untouched, or from the failed `realloc`, after `cap` has been overwritten with
the new capacity and `data` with `NULL`. -/
theorem capacity_badAlloc_cases (env : Env) (v w : vec α) (M : Int)
    (h : capacity env v M = Outcome.badAlloc w) :
    w = v ∨ (w.data = none ∧ w.sz = v.sz ∧
      ∃ P, pow2Loop env.fuel 2 ((v.cap + growthAdd v.cap M) % 4294967296) = some P ∧
        w.cap = dewaste P ((v.cap + growthAdd v.cap M) % 4294967296)) := by
  unfold capacity at h
  by_cases h1 : toInt32 (v.cap : Int) ≥ M
  · rw [if_pos h1] at h
    exact absurd h (by simp)
  · rw [if_neg h1] at h
    simp only at h
    by_cases h2 : growthAdd v.cap M > 4294967295 - v.cap
    · rw [if_pos h2] at h
      exact Or.inl (Outcome.badAlloc.inj h).symm
    · rw [if_neg h2] at h
      cases hp : pow2Loop env.fuel 2 ((v.cap + growthAdd v.cap M) % 4294967296) with
      | none => rw [hp] at h; simp at h
      | some r =>
        rw [hp] at h
        simp only at h
        cases hh : env.heap (dewaste r ((v.cap + growthAdd v.cap M) % 4294967296)) with
        | block => rw [hh] at h; simp at h
        | nullENOMEM =>
          rw [hh] at h
          have hw := (Outcome.badAlloc.inj h).symm
          subst hw
          exact Or.inr ⟨rfl, rfl, r, rfl, rfl⟩
        | nullOther => rw [hh] at h; simp at h

/-- C12, at a failing input. The full buffer `[1,2]` of capacity 2 and an
allocator that answers `NULL` with `ENOMEM`: `capacity(3)`, `growTo(3)` and
`push(3)` throw `std::bad_alloc` and leave `cap = 4` and `data = NULL`, not the
capacity 2 and the block holding `1, 2` the buffer had before the call. -/
theorem growth_failure_not_atomic :
    capacity failEnv ({ data := some [some 1, some 2], sz := 2, cap := 2 } : vec Nat) 3
      = Outcome.badAlloc { data := none, sz := 2, cap := 4 } ∧
    growTo failEnv ({ data := some [some 1, some 2], sz := 2, cap := 2 } : vec Nat) 3
      = Outcome.badAlloc { data := none, sz := 2, cap := 4 } ∧
    push failEnv ({ data := some [some 1, some 2], sz := 2, cap := 2 } : vec Nat) 3
      = Outcome.badAlloc { data := none, sz := 2, cap := 4 } ∧
    ({ data := none, sz := 2, cap := 4 } : vec Nat)
      ≠ { data := some [some 1, some 2], sz := 2, cap := 2 } := by
  decide

/-! ## `shrink_to_fit` -/

/-- C13. On a buffer satisfying the invariants: with `sz = 0`, `shrink_to_fit()`
leaves the Empty state; with `sz > 0` and a successful `realloc`, the capacity
equals the size, the size is unchanged and so are the live elements; with
`sz > 0` and a failed `realloc`, the buffer is unchanged. -/
theorem shrink_to_fit_spec (env : Env) (v : vec α) (hinv : Inv v) :
    (v.sz = 0 → shrink_to_fit env v = { data := none, sz := 0, cap := 0 }) ∧
    (0 < v.sz → env.heap v.sz = AllocReply.block →
      getCapacity (shrink_to_fit env v) = size (shrink_to_fit env v) ∧
      size (shrink_to_fit env v) = size v ∧
      elems (shrink_to_fit env v) = elems v ∧
      (shrink_to_fit env v).data.isSome = true) ∧
    (0 < v.sz → env.heap v.sz ≠ AllocReply.block → shrink_to_fit env v = v) := by
  refine ⟨?_, ?_, ?_⟩
  · intro h0
    unfold shrink_to_fit
    rw [if_pos h0, h0]
  · intro hpos hheap
    have hle := hinv.1
    obtain ⟨blk, hd⟩ := Inv_data_of_pos v hinv (by omega)
    obtain ⟨hlen, _, _⟩ := Inv_some v blk hinv hd
    have hres : shrink_to_fit env v
        = { data := some (reallocBlock v.data v.sz), sz := v.sz, cap := v.sz } := by
      unfold shrink_to_fit
      rw [if_neg (by omega), hheap]
    rw [hres]
    refine ⟨rfl, rfl, ?_, rfl⟩
    simp only [elems, Option.getD_some, hd]
    exact reallocBlock_take blk v.sz v.sz (by omega) (le_refl _)
  · intro hpos hheap
    unfold shrink_to_fit
    rw [if_neg (by omega)]
    cases hh : env.heap v.sz with
    | block => exact absurd hh hheap
    | nullENOMEM => rfl
    | nullOther => rfl

/-- C13, at concrete inputs: the buffer `[10,20,30]` of capacity 4 with a
working allocator, and the same buffer with a failing one. -/
theorem shrink_to_fit_spec_witness :
    Inv ({ data := some [some 10, some 20, some 30, none], sz := 3, cap := 4 } : vec Nat) ∧
    shrink_to_fit stdEnv
        ({ data := some [some 10, some 20, some 30, none], sz := 3, cap := 4 } : vec Nat)
      = { data := some [some 10, some 20, some 30], sz := 3, cap := 3 } ∧
    shrink_to_fit failEnv
        ({ data := some [some 10, some 20, some 30, none], sz := 3, cap := 4 } : vec Nat)
      = { data := some [some 10, some 20, some 30, none], sz := 3, cap := 4 } :=
  ⟨by decide, by decide,
   (shrink_to_fit_spec failEnv
      ({ data := some [some 10, some 20, some 30, none], sz := 3, cap := 4 } : vec Nat)
      (by decide)).2.2 (by decide) (by decide)⟩

/-! ## The specialised `clear` -/

theorem fillLoop_data (x : Option α) (k i : Nat) (v w : vec α)
    (h : fillLoop x k i v = Outcome.ok w) : w.data.isSome = v.data.isSome := by
  induction k generalizing i v with
  | zero =>
    simp only [fillLoop, Outcome.ok.injEq] at h
    subst h
    rfl
  | succ k ih =>
    unfold fillLoop at h
    cases hs : storeAt v i x with
    | ok u =>
      rw [hs] at h
      obtain ⟨blk, hvd, _, hu⟩ := storeAt_inv v u i x hs
      have := ih (i + 1) u h
      rw [this, hu, hvd]
      rfl
    | badAlloc u => rw [hs] at h; simp [Outcome.bind] at h
    | undefined => rw [hs] at h; simp [Outcome.bind] at h
    | timeout => rw [hs] at h; simp [Outcome.bind] at h

/-- C14. For every buffer state and both values of `dealloc`, the specialised
`vec<Watched>::clear` returns, and every normal return of the generic `clear`
has the same size, capacity and storage presence; the generic `clear`, whose
destructor loop the specialised one omits, returns on every buffer satisfying
the invariants. -/
theorem clearWatched_equiv (v : vec α) (dealloc : Bool) :
    (∃ w, clearWatched v dealloc = Outcome.ok w ∧
      ∀ u, clear v dealloc = Outcome.ok u →
        size u = size w ∧ getCapacity u = getCapacity w ∧ u.data.isSome = w.data.isSome) ∧
    (Inv v → ∃ u, clear v dealloc = Outcome.ok u) := by
  constructor
  · obtain ⟨data, sz, cap⟩ := v
    cases data with
    | none =>
      refine ⟨_, rfl, ?_⟩
      intro u hu
      have hu' : u = { data := none, sz := sz, cap := cap } := (Outcome.ok.inj hu).symm
      subst hu'
      exact ⟨rfl, rfl, rfl⟩
    | some blk =>
      cases hf : fillLoop none sz 0 ({ data := some blk, sz := sz, cap := cap } : vec α) with
      | ok t =>
        obtain ⟨_, htcap⟩ := fillLoop_fields none sz 0 _ t hf
        have htd := fillLoop_data none sz 0 _ t hf
        cases dealloc with
        | true =>
          refine ⟨{ data := none, sz := 0, cap := 0 }, rfl, ?_⟩
          intro u hu
          simp only [clear, hf, Outcome.bind, if_true, Outcome.ok.injEq] at hu
          subst hu
          exact ⟨rfl, rfl, rfl⟩
        | false =>
          refine ⟨{ data := some blk, sz := 0, cap := cap }, rfl, ?_⟩
          intro u hu
          simp only [clear, hf, Outcome.bind, Bool.false_eq_true, if_false,
            Outcome.ok.injEq] at hu
          subst hu
          exact ⟨rfl, htcap, htd⟩
      | badAlloc t =>
        cases dealloc <;>
          exact ⟨_, rfl, fun u hu => by simp [clear, hf, Outcome.bind] at hu⟩
      | undefined =>
        cases dealloc <;>
          exact ⟨_, rfl, fun u hu => by simp [clear, hf, Outcome.bind] at hu⟩
      | timeout =>
        cases dealloc <;>
          exact ⟨_, rfl, fun u hu => by simp [clear, hf, Outcome.bind] at hu⟩
  · intro hinv
    cases dealloc with
    | true => exact ⟨_, (clear_eq v hinv).2⟩
    | false => exact ⟨_, (clear_eq v hinv).1⟩

/-- C14, at a concrete input: both clears of the buffer `[10,20,30]` of
capacity 4, without deallocation. -/
theorem clearWatched_equiv_witness :
    Inv ({ data := some [some 10, some 20, some 30, none], sz := 3, cap := 4 } : vec Nat) ∧
    clearWatched ({ data := some [some 10, some 20, some 30, none], sz := 3, cap := 4 } : vec Nat)
        false
      = Outcome.ok { data := some [some 10, some 20, some 30, none], sz := 0, cap := 4 } ∧
    ∃ u, clear ({ data := some [some 10, some 20, some 30, none], sz := 3, cap := 4 } : vec Nat)
        false = Outcome.ok u :=
  ⟨by decide, by decide,
   (clearWatched_equiv
      ({ data := some [some 10, some 20, some 30, none], sz := 3, cap := 4 } : vec Nat) false).2
     (by decide)⟩

/-! ## The growth increment and the choice of the capacity -/

/-- C15 (amended). For every current capacity `C` and every request `M` with
`C < M ≤ 2^31 - 1`, the increment the planner adds to `C` is
`max(round_down_even(M - C + 1), round_down_even(C/2 + 2))`: both arguments are
rounded down to an even number by `& ~1`. -/
theorem growthAdd_formula (C M : Nat) (hCM : C < M) (hM : M ≤ 2147483647) :
    growthAdd C (M : Int) =
      max (specRoundDownEven (M - C + 1)) (specRoundDownEven (C / 2 + 2)) := by
  unfold specRoundDownEven
  by_cases hw : (M : Int) - C + 1 < 2147483648
  · have h := growthAdd_eq C M (by omega) (by omega) (by omega) hw
    rcases le_total (((M : Int) - C + 1) - ((M : Int) - C + 1) % 2)
        (((C : Int) / 2 + 2) - ((C : Int) / 2 + 2) % 2) with hle | hle
    · rw [max_eq_right hle] at h
      rw [max_eq_right (by omega)]
      omega
    · rw [max_eq_left hle] at h
      rw [max_eq_left (by omega)]
      omega
  · have hC0 : C = 0 := by omega
    have hM0 : M = 2147483647 := by omega
    subst hC0; subst hM0
    decide

/-- C15 (amended), at a concrete input: from capacity 0 a request for 2 slots
adds `max(round_down_even 3, round_down_even 2) = 2`. -/
theorem growthAdd_formula_witness :
    0 < 2 ∧ 2 ≤ 2147483647 ∧
    growthAdd 0 ((2 : Nat) : Int) = max (specRoundDownEven (2 - 0 + 1)) (specRoundDownEven (0 / 2 + 2)) ∧
    growthAdd 0 ((2 : Nat) : Int) = 2 :=
  ⟨by decide, by decide, growthAdd_formula 0 2 (by decide) (by decide), by decide⟩

/-- C15, as stated, fails: from capacity 0 a request for 2 slots adds 2, while
`max(round_up_even(2 - 0 + 1), round_down_even(0/2 + 2))` is 4. -/
theorem growthAdd_formula_counterexample :
    growthAdd 0 ((2 : Nat) : Int) = 2 ∧ specDelta 0 2 = 4 ∧
    growthAdd 0 ((2 : Nat) : Int) ≠ specDelta 0 2 := by
  decide

/-- The power-of-two search, started at `2^(31-m)` with a bound of at most
`2^31`, ends at the least power of two from there on that reaches the bound. -/
theorem pow2Loop_least (m : Nat) (hm : m ≤ 30) (cap : Nat) (hcap : cap ≤ 2147483648)
    (fuel : Nat) (hf : m + 2 ≤ fuel) :
    ∃ k, 31 - m ≤ k ∧ k ≤ 31 ∧ pow2Loop fuel (2 ^ (31 - m)) cap = some (2 ^ k) ∧
      cap ≤ 2 ^ k ∧ (k = 31 - m ∨ 2 ^ (k - 1) < cap) := by
  induction m generalizing fuel with
  | zero =>
    obtain ⟨f, rfl⟩ : ∃ f, fuel = f + 1 := ⟨fuel - 1, by omega⟩
    refine ⟨31, le_refl _, le_refl _, ?_, by norm_num; exact hcap, Or.inl rfl⟩
    unfold pow2Loop
    have h31 : (2 : Nat) ^ (31 - 0) = 2147483648 := by norm_num
    rw [h31, if_neg (by omega)]
  | succ m ih =>
    obtain ⟨f, rfl⟩ : ∃ f, fuel = f + 1 := ⟨fuel - 1, by omega⟩
    have hle : (2 : Nat) ^ (31 - (m + 1)) ≤ 2 ^ 30 := Nat.pow_le_pow_right (by norm_num) (by omega)
    by_cases hlt : (2 : Nat) ^ (31 - (m + 1)) < cap
    · have hstep : (2 : Nat) ^ (31 - (m + 1)) * 2 % 4294967296 = 2 ^ (31 - m) := by
        have e : 31 - m = (31 - (m + 1)) + 1 := by omega
        rw [e, pow_succ]
        apply Nat.mod_eq_of_lt
        omega
      obtain ⟨k, hk1, hk2, hk3, hk4, hk5⟩ := ih (by omega) f (by omega)
      refine ⟨k, by omega, hk2, ?_, hk4, Or.inr ?_⟩
      · unfold pow2Loop
        rw [if_pos hlt, hstep]
        exact hk3
      · rcases hk5 with hk5 | hk5
        · have e : k - 1 = 31 - (m + 1) := by omega
          rw [e]
          exact hlt
        · exact hk5
    · refine ⟨31 - (m + 1), le_refl _, by omega, ?_, by omega, Or.inl rfl⟩
      unfold pow2Loop
      rw [if_neg hlt]

theorem pow2Loop_least_two (cap : Nat) (hcap : cap ≤ 2147483648) (fuel : Nat)
    (hf : 32 ≤ fuel) :
    ∃ k, 1 ≤ k ∧ k ≤ 31 ∧ pow2Loop fuel 2 cap = some (2 ^ k) ∧
      cap ≤ 2 ^ k ∧ (k = 1 ∨ 2 ^ (k - 1) < cap) := by
  obtain ⟨k, h1, h2, h3, h4, h5⟩ := pow2Loop_least 30 (le_refl _) cap hcap fuel (by omega)
  exact ⟨k, by omega, h2, by simpa using h3, h4, by omega⟩

/-- C16. Quantise and de-waste: when the candidate capacity `c = C + delta`
satisfies `1 ≤ c ≤ 2^30` (and the allocator answers, with `32` units of fuel),
`capacity` returns with the capacity `floor(2P/3)` if `floor(2P/3) > c` and `P`
otherwise, where `P = 2^k`, `k ≥ 1`, is the smallest power of two with `P ≥ c`
and `P ≥ 2`; the chosen capacity is at least `c`. -/
theorem quantise_dewaste (env : Env) (v : vec α) (M : Int) (halloc : env.allocOk)
    (hfuel : 32 ≤ env.fuel) (hgrow : ¬ toInt32 (v.cap : Int) ≥ M)
    (hc1 : 1 ≤ v.cap + growthAdd v.cap M) (hc2 : v.cap + growthAdd v.cap M ≤ 1073741824) :
    ∃ k w, 1 ≤ k ∧ v.cap + growthAdd v.cap M ≤ 2 ^ k ∧
      (∀ j, 1 ≤ j → v.cap + growthAdd v.cap M ≤ 2 ^ j → 2 ^ k ≤ 2 ^ j) ∧
      capacity env v M = Outcome.ok w ∧
      w.cap = (if 2 * 2 ^ k / 3 > v.cap + growthAdd v.cap M then 2 * 2 ^ k / 3 else 2 ^ k) ∧
      v.cap + growthAdd v.cap M ≤ w.cap := by
  obtain ⟨k, hk1, hk2, hk3, hk4, hk5⟩ :=
    pow2Loop_least_two (v.cap + growthAdd v.cap M) (by omega) env.fuel hfuel
  have hk30 : k ≤ 30 := by
    rcases hk5 with hk5 | hk5
    · omega
    · by_contra hc
      have : (2 : Nat) ^ 30 ≤ 2 ^ (k - 1) := Nat.pow_le_pow_right (by norm_num) (by omega)
      omega
  have hP : (2 : Nat) ^ k ≤ 1073741824 := by
    have : (2 : Nat) ^ k ≤ 2 ^ 30 := Nat.pow_le_pow_right (by norm_num) hk30
    omega
  have hmin : ∀ j, 1 ≤ j → v.cap + growthAdd v.cap M ≤ 2 ^ j → (2 : Nat) ^ k ≤ 2 ^ j := by
    intro j hj hcj
    rcases hk5 with hk5 | hk5
    · exact Nat.pow_le_pow_right (by norm_num) (by omega)
    · have hlt : (2 : Nat) ^ (k - 1) < 2 ^ j := by omega
      have := (Nat.pow_lt_pow_iff_right (by norm_num : 1 < 2)).1 hlt
      exact Nat.pow_le_pow_right (by norm_num) (by omega)
  have hdw : dewaste (2 ^ k) (v.cap + growthAdd v.cap M)
      = (if 2 * 2 ^ k / 3 > v.cap + growthAdd v.cap M then 2 * 2 ^ k / 3 else 2 ^ k) := by
    unfold dewaste
    have e : 2 ^ k * 2 % 4294967296 = 2 * 2 ^ k := by omega
    rw [e]
  have hcapeq := capacity_grow_eq env v M (2 ^ k) (by omega) hgrow (by omega) hk3 (halloc _)
  refine ⟨k, _, hk1, hk4, hmin, hcapeq, hdw, ?_⟩
  exact dewaste_ge _ _ hk4

/-- C16, at a concrete input: from capacity 0 a request for 17 slots has the
candidate 18, the power of two 32, and the chosen capacity `floor(64/3) = 21`. -/
theorem quantise_dewaste_witness :
    stdEnv.allocOk ∧ 32 ≤ stdEnv.fuel ∧
    (empty : vec Nat).cap + growthAdd (empty : vec Nat).cap 17 = 18 ∧
    ∃ k w, 1 ≤ k ∧ (empty : vec Nat).cap + growthAdd (empty : vec Nat).cap 17 ≤ 2 ^ k ∧
      (∀ j, 1 ≤ j → (empty : vec Nat).cap + growthAdd (empty : vec Nat).cap 17 ≤ 2 ^ j →
        2 ^ k ≤ 2 ^ j) ∧
      capacity stdEnv (empty : vec Nat) 17 = Outcome.ok w ∧
      w.cap = (if 2 * 2 ^ k / 3 > (empty : vec Nat).cap + growthAdd (empty : vec Nat).cap 17
                then 2 * 2 ^ k / 3 else 2 ^ k) ∧
      (empty : vec Nat).cap + growthAdd (empty : vec Nat).cap 17 ≤ w.cap :=
  ⟨fun _ => rfl, by decide, by decide,
   quantise_dewaste stdEnv (empty : vec Nat) 17 (fun _ => rfl) (by decide) (by decide)
     (by decide) (by decide)⟩

/-- C17, at a failing input. From capacity 0 a request for 17 slots
(`capacity(17)`, `growTo(17)`) produces the capacity 21, an odd number: the
candidate 18 is rounded up to 32 and the de-waste step replaces it by
`floor(64/3)`. -/
theorem capacity_odd :
    (∃ w, capacity stdEnv (empty : vec Nat) 17 = Outcome.ok w ∧ w.cap = 21) ∧
    (∃ w, growTo stdEnv (empty : vec Nat) 17 = Outcome.ok w ∧ w.cap = 21) ∧
    21 % 2 = 1 := by
  refine ⟨⟨{ data := some (List.replicate 21 none), sz := 0, cap := 21 }, by decide, rfl⟩,
    ⟨{ data := some (List.replicate 17 (some 0) ++ List.replicate 4 none), sz := 17, cap := 21 },
      by decide, rfl⟩, by decide⟩

/-! ## Termination of the planner -/

/-- From the capacity `1431655765` a request for one more slot has the
candidate `1431655765 + 715827884 = 2147483649 > 2^31`: the search
`while (new_size < cap) new_size *= 2` wraps to `0` and never ends, whatever
the fuel and the allocator. -/
theorem capacity_diverges (env : Env) (v : vec α) (hcap : v.cap = 1431655765) :
    capacity env v 1431655766 = Outcome.timeout := by
  unfold capacity
  rw [hcap]
  have h1 : toInt32 ((1431655765 : Nat) : Int) = 1431655765 := by decide
  have h2 : growthAdd 1431655765 1431655766 = 715827884 := by decide
  rw [h1, if_neg (by norm_num)]
  simp only [h2]
  rw [if_neg (by norm_num)]
  have h3 : (1431655765 + 715827884) % 4294967296 = 2147483649 := by norm_num
  rw [h3, pow2Loop_diverges_two 2147483649 (by norm_num) env.fuel]

theorem push_diverges (env : Env) (v : vec α) (x : α) (hsz : v.sz = 1431655765)
    (hcap : v.cap = 1431655765) : push env v x = Outcome.timeout := by
  unfold push
  rw [if_pos (by omega), hsz]
  have hM : toInt32 (toUInt32 (((1431655765 : Nat) : Int) + 1)) = 1431655766 := by decide
  rw [hM, capacity_diverges env v hcap]
  rfl

/-- C19, at a failing input. `growTo(1431655765)` on an empty buffer followed
by `shrink_to_fit()` gives a full buffer of capacity `1431655765`; on it
`capacity(1431655766)`, and so `push`, never returns, whatever the fuel and
the allocator: the candidate capacity `2147483649` exceeds `2^31` and the
doubling of `new_size` wraps to `0`. -/
theorem planner_never_returns :
    ∃ v : vec Nat, growTo stdEnv (empty : vec Nat) 1431655765 = Outcome.ok v ∧
      (shrink_to_fit stdEnv v).sz = 1431655765 ∧ (shrink_to_fit stdEnv v).cap = 1431655765 ∧
      (∀ env : Env, capacity env (shrink_to_fit stdEnv v) 1431655766 = Outcome.timeout) ∧
      (∀ (env : Env) (x : Nat), push env (shrink_to_fit stdEnv v) x = Outcome.timeout) := by
  obtain ⟨v, hv, hsz, _, _, _, _, hinv⟩ := growToPad_returns stdEnv (empty : vec Nat) 1431655765
    default Inv_empty (fun _ => rfl) (by decide) (by norm_num) (by simp [empty])
    (by simp [empty])
  have hsz' : v.sz = 1431655765 := by simpa [empty] using hsz
  have hres : shrink_to_fit stdEnv v
      = { data := some (reallocBlock v.data v.sz), sz := v.sz, cap := v.sz } := by
    unfold shrink_to_fit
    rw [if_neg (by omega)]
    rfl
  have hs : (shrink_to_fit stdEnv v).sz = 1431655765 := by rw [hres]; exact hsz'
  have hc : (shrink_to_fit stdEnv v).cap = 1431655765 := by rw [hres]; exact hsz'
  exact ⟨v, hv, hs, hc, fun env => capacity_diverges env _ hc,
    fun env x => push_diverges env _ x hs hc⟩

/-! ## Counting the planner calls of a run of pushes -/

/-- A run of pushes with a working allocator, counted: if before the run the
size is `m`, the capacity `2^k` and the count `k`, with `2^k` the least power
of two (from `2` on) that holds `m` elements — or all three are `0` — then the
same holds after the run, as long as the size stays within `2^30`. -/
theorem pushAllCount_returns (env : Env) (halloc : env.allocOk) (hfuel : 32 ≤ env.fuel)
    (xs : List α) (v : vec α) (c : Nat) (hinv : Inv v)
    (hc : (v.sz = 0 ∧ v.cap = 0 ∧ c = 0) ∨
      ∃ k, 1 ≤ k ∧ v.cap = 2 ^ k ∧ c = k ∧ 1 ≤ v.sz ∧ v.sz ≤ 2 ^ k ∧ (k = 1 ∨ 2 ^ (k - 1) < v.sz))
    (hlen : v.sz + xs.length ≤ 1073741824) :
    ∃ w c', pushAllCount env v xs c = Outcome.ok (w, c') ∧ Inv w ∧
      w.sz = v.sz + xs.length ∧
      ((w.sz = 0 ∧ w.cap = 0 ∧ c' = 0) ∨
        ∃ k, 1 ≤ k ∧ w.cap = 2 ^ k ∧ c' = k ∧ 1 ≤ w.sz ∧ w.sz ≤ 2 ^ k ∧
          (k = 1 ∨ 2 ^ (k - 1) < w.sz)) := by
  induction xs generalizing v c with
  | nil => exact ⟨v, c, rfl, hinv, by simp, hc⟩
  | cons x xs ih =>
    simp only [List.length_cons] at hlen
    have hle := hinv.1
    have hk30 : ∀ k, 1 ≤ k → v.cap = 2 ^ k → (k = 1 ∨ 2 ^ (k - 1) < v.sz) → k ≤ 30 := by
      intro k hk1 hkc hk
      rcases hk with hk | hk
      · omega
      · by_contra hcon
        have : (2 : Nat) ^ 30 ≤ 2 ^ (k - 1) := Nat.pow_le_pow_right (by norm_num) (by omega)
        omega
    have hS : IsPushCap v.cap := by
      rcases hc with ⟨_, h0, _⟩ | ⟨k, hk1, hkc, _, _, _, hk⟩
      · exact Or.inl h0
      · exact Or.inr ⟨k, hk1, by have := hk30 k hk1 hkc hk; omega, hkc⟩
    have hcap31 : v.cap < 2147483648 := by
      rcases hc with ⟨_, h0, _⟩ | ⟨k, hk1, hkc, _, _, _, hk⟩
      · omega
      · have h30 := hk30 k hk1 hkc hk
        have : (2 : Nat) ^ k ≤ 2 ^ 30 := Nat.pow_le_pow_right (by norm_num) h30
        omega
    obtain ⟨u, hu, huinv, _⟩ := push_returns env v x hinv halloc hfuel (by omega)
      (fun _ => by have := IsPushCap_lt v.cap hS hcap31; omega)
    obtain ⟨husz, _, _, hukeep, hugrow⟩ := push_ok_inv env v u x hS hle (by omega) hu
    have hcu : ((u.sz = 0 ∧ u.cap = 0 ∧ (if v.sz = v.cap then c + 1 else c) = 0) ∨
        ∃ k, 1 ≤ k ∧ u.cap = 2 ^ k ∧ (if v.sz = v.cap then c + 1 else c) = k ∧ 1 ≤ u.sz ∧
          u.sz ≤ 2 ^ k ∧ (k = 1 ∨ 2 ^ (k - 1) < u.sz)) := by
      right
      rcases hc with ⟨h0, hc0, hcz⟩ | ⟨k, hk1, hkc, hck, hk1s, hkle, hk⟩
      · have hfull : v.sz = v.cap := by omega
        have := hugrow hfull
        rw [if_pos hc0] at this
        refine ⟨1, le_refl _, by rw [this]; norm_num, by rw [if_pos hfull]; omega, by omega,
          by rw [husz, h0]; norm_num, Or.inl rfl⟩
      · by_cases hfull : v.sz = v.cap
        · have hpos : 0 < 2 ^ k := Nat.pos_pow_of_pos k (by norm_num)
          have := hugrow hfull
          rw [if_neg (by omega), hkc] at this
          refine ⟨k + 1, by omega, by rw [this, pow_succ]; omega, by rw [if_pos hfull]; omega,
            by omega, by rw [husz, pow_succ]; omega, Or.inr ?_⟩
          rw [husz, hfull, hkc]
          simp
        · have := hukeep (by omega)
          refine ⟨k, hk1, by rw [this]; exact hkc, by rw [if_neg hfull]; exact hck, by omega,
            by omega, ?_⟩
          rcases hk with hk | hk
          · exact Or.inl hk
          · exact Or.inr (by omega)
    obtain ⟨w, c', hw, hwinv, hwsz, hwc⟩ := ih u _ huinv hcu (by omega)
    refine ⟨w, c', ?_, hwinv, by rw [hwsz, husz]; simp only [List.length_cons]; omega, hwc⟩
    simp only [pushAllCount, hu]
    exact hw

/-- C18. For every list of `n` values with `1 ≤ n ≤ 2^30` (a working allocator,
`32` units of fuel), pushing them one at a time onto an empty buffer returns,
calls the planner at most `floor(log2 n) + 1` times, and leaves the capacity at
`2^k`, the smallest power of two that is at least `max(n, 2)`; and a push that
changes a non-zero capacity of such a run (a power of two) doubles it. -/
theorem push_realloc_count (env : Env) (halloc : env.allocOk) (hfuel : 32 ≤ env.fuel)
    (xs : List α) (h1 : 1 ≤ xs.length) (h2 : xs.length ≤ 1073741824) :
    ∃ w c k, pushAllCount env (empty : vec α) xs 0 = Outcome.ok (w, c) ∧
      size w = xs.length ∧ c ≤ Nat.log 2 xs.length + 1 ∧
      getCapacity w = 2 ^ k ∧ max xs.length 2 ≤ 2 ^ k ∧
      (∀ j, max xs.length 2 ≤ 2 ^ j → 2 ^ k ≤ 2 ^ j) ∧
      ∀ (v u : vec α) (x : α), Inv v → IsPushCap v.cap → v.sz < 2147483648 → v.cap ≠ 0 →
        push env v x = Outcome.ok u → u.cap ≠ v.cap → u.cap = 2 * v.cap := by
  have hdouble : ∀ (v u : vec α) (x : α), Inv v → IsPushCap v.cap → v.sz < 2147483648 →
      v.cap ≠ 0 → push env v x = Outcome.ok u → u.cap ≠ v.cap → u.cap = 2 * v.cap := by
    intro v u x hinv hS hsz hne hp hch
    obtain ⟨_, _, _, hkeep, hgrow⟩ := push_ok_inv env v u x hS hinv.1 hsz hp
    by_cases hfull : v.sz = v.cap
    · have := hgrow hfull
      rw [if_neg hne] at this
      exact this
    · exact absurd (hkeep (by have := hinv.1; omega)) hch
  obtain ⟨w, c, hw, _, hsz, hc⟩ := pushAllCount_returns env halloc hfuel xs empty 0 Inv_empty
    (Or.inl ⟨rfl, rfl, rfl⟩) (by simpa [empty] using h2)
  have hsz' : w.sz = xs.length := by simpa [empty] using hsz
  rcases hc with ⟨h0, _, _⟩ | ⟨k, hk1, hkc, hck, _, hkle, hk⟩
  · omega
  · rw [hsz'] at hkle hk
    refine ⟨w, c, k, hw, hsz', ?_, hkc, ?_, ?_, hdouble⟩
    · rcases hk with hk | hk
      · omega
      · have := Nat.le_log_of_pow_le (by norm_num : 1 < 2) (le_of_lt hk)
        omega
    · have h2k : (2 : Nat) ^ 1 ≤ 2 ^ k := Nat.pow_le_pow_right (by norm_num) hk1
      exact max_le hkle (by simpa using h2k)
    · intro j hj
      have hj2 : 2 ≤ 2 ^ j := le_trans (le_max_right _ _) hj
      have hjn : xs.length ≤ 2 ^ j := le_trans (le_max_left _ _) hj
      rcases hk with hk | hk
      · rw [hk]; simpa using hj2
      · have hlt : (2 : Nat) ^ (k - 1) < 2 ^ j := by omega
        have := (Nat.pow_lt_pow_iff_right (by norm_num : 1 < 2)).1 hlt
        exact Nat.pow_le_pow_right (by norm_num) (by omega)

/-- C18, at a concrete input: five pushes call the planner three times
(capacities 2, 4, 8). -/
theorem push_realloc_count_witness :
    stdEnv.allocOk ∧ 32 ≤ stdEnv.fuel ∧ 1 ≤ [1, 2, 3, 4, 5].length ∧
    [1, 2, 3, 4, 5].length ≤ 1073741824 ∧
    (∃ w, pushAllCount stdEnv (empty : vec Nat) [1, 2, 3, 4, 5] 0 = Outcome.ok (w, 3) ∧
      w.cap = 8) ∧
    ∃ w c k, pushAllCount stdEnv (empty : vec Nat) [1, 2, 3, 4, 5] 0 = Outcome.ok (w, c) ∧
      size w = [1, 2, 3, 4, 5].length ∧ c ≤ Nat.log 2 [1, 2, 3, 4, 5].length + 1 ∧
      getCapacity w = 2 ^ k ∧ max [1, 2, 3, 4, 5].length 2 ≤ 2 ^ k ∧
      (∀ j, max [1, 2, 3, 4, 5].length 2 ≤ 2 ^ j → 2 ^ k ≤ 2 ^ j) ∧
      ∀ (v u : vec Nat) (x : Nat), Inv v → IsPushCap v.cap → v.sz < 2147483648 → v.cap ≠ 0 →
        push stdEnv v x = Outcome.ok u → u.cap ≠ v.cap → u.cap = 2 * v.cap :=
  ⟨fun _ => rfl, by decide, by decide, by decide,
   ⟨{ data := some [some 1, some 2, some 3, some 4, some 5, none, none, none], sz := 5,
      cap := 8 }, by decide, rfl⟩,
   push_realloc_count stdEnv (fun _ => rfl) (by decide) [1, 2, 3, 4, 5] (by decide) (by decide)⟩

/-! ## Capacities after the transfer operations -/

theorem Inv_cleared (dest : vec α) (hdest : Inv dest) :
    Inv ({ data := dest.data.map
                     (fun blk => List.replicate dest.sz none ++ blk.drop dest.sz),
           sz := 0, cap := dest.cap } : vec α) := by
  cases hdd : dest.data with
  | none =>
    have := Inv_none dest hdest hdd
    unfold Inv
    simp [this.1]
  | some blk =>
    obtain ⟨hlen, hpos, _⟩ := Inv_some dest blk hdest hdd
    have := hdest.1
    simp only [Option.map_some']
    exact Inv_mk _ _ _ (by omega) hdest.2.1 hpos (by simp; omega) (by simp)

/-- The copy loop of `copyTo` on a destination already grown to the size of the
source. -/
theorem copyLoop_full (src d1 : vec α) (hsrc : Inv src) (hd1 : Inv d1)
    (hsz : d1.sz = src.sz) :
    ∃ d2, copyLoop src src.sz 0 d1 = Outcome.ok d2 ∧ d2.sz = src.sz ∧ d2.cap = d1.cap ∧
      elems d2 = elems src ∧ Inv d2 := by
  by_cases hz : src.sz = 0
  · rw [hz]
    refine ⟨d1, rfl, by omega, rfl, ?_, hd1⟩
    simp [elems, hsz, hz]
  · have hsle := hsrc.1
    have hd1le := hd1.1
    obtain ⟨sblk, hsd⟩ := Inv_data_of_pos src hsrc (by omega)
    obtain ⟨hslen, _, hsall⟩ := Inv_some src sblk hsrc hsd
    obtain ⟨cblk, hcd⟩ := Inv_data_of_pos d1 hd1 (by omega)
    obtain ⟨hclen, hcpos, _⟩ := Inv_some d1 cblk hd1 hcd
    rw [copyLoop_ok src sblk hsd hsall (by omega) src.sz 0 d1 cblk hcd (by omega) (by omega)]
    simp only [List.take_zero, List.nil_append, List.drop_zero, zero_add]
    have htake : (sblk.take src.sz ++ cblk.drop src.sz).take src.sz = sblk.take src.sz := by
      rw [List.take_append_of_le_length (by simp; omega)]
      rw [List.take_of_length_le (by simp)]
    refine ⟨_, rfl, hsz, rfl, ?_, ?_⟩
    · simp only [elems, Option.getD_some, hsz, hsd]
      exact htake
    · apply Inv_mk _ _ _ hd1le hd1.2.1 hcpos (by simp; omega)
      rw [hsz, htake]
      exact hsall

/-- When the destination's capacity (below `2^31`) covers the source's size,
`copyTo` returns without calling the allocator and the destination keeps its
capacity. -/
theorem copyTo_within [Inhabited α] (env : Env) (src dest : vec α) (hsrc : Inv src)
    (hdest : Inv dest) (hfit : src.sz ≤ dest.cap) (hcap31 : dest.cap < 2147483648) :
    ∃ d, copyTo env src dest = Outcome.ok (src, d) ∧ d.cap = dest.cap ∧ d.sz = src.sz ∧
      elems d = elems src ∧ Inv d := by
  have hclear := (clear_eq dest hdest).1
  obtain ⟨d1, hd1, hd1sz, hd1cap, _, hd1inv⟩ := growToPad_within env _ src.sz default
    (Inv_cleared dest hdest) hcap31 hfit
  have hd1sz' : d1.sz = src.sz := by simpa using hd1sz
  obtain ⟨d2, hd2, hd2sz, hd2cap, hd2el, hd2inv⟩ := copyLoop_full src d1 hsrc hd1inv hd1sz'
  refine ⟨d2, ?_, by rw [hd2cap, hd1cap], hd2sz, hd2el, hd2inv⟩
  unfold copyTo
  rw [hclear]
  simp only [Outcome.bind]
  rw [growTo_eq_growToPad, hd1]
  simp only
  rw [hd2]
  rfl

/-- When the destination's capacity (at most `1431655764`) is smaller than the
source's size (at most `2^31 - 1`), with a working allocator and `32` units of
fuel, `copyTo` returns and the destination's capacity is the one its call of
`capacity(sz)`, made by `growTo(sz)` on the cleared destination, has computed:
at least the source's size, hence greater than the former capacity. -/
theorem copyTo_grows [Inhabited α] (env : Env) (src dest : vec α) (hsrc : Inv src)
    (hdest : Inv dest) (halloc : env.allocOk) (hfuel : 32 ≤ env.fuel)
    (hsmall : dest.cap < src.sz) (hn : src.sz ≤ 2147483647) (hC : dest.cap ≤ 1431655764) :
    ∃ c u d, clear dest false = Outcome.ok c ∧ capacity env c (src.sz : Int) = Outcome.ok u ∧
      copyTo env src dest = Outcome.ok (src, d) ∧ d.cap = u.cap ∧ src.sz ≤ d.cap ∧
      dest.cap < d.cap := by
  have hclear := (clear_eq dest hdest).1
  obtain ⟨d1, hd1, hd1sz, hd1cap, _, _, _, hd1inv⟩ := growToPad_returns env _ src.sz default
    (Inv_cleared dest hdest) halloc hfuel hn (by show dest.cap < 2147483648; omega) (fun _ => hC)
  have hd1sz' : d1.sz = src.sz := by simpa using hd1sz
  obtain ⟨u, hu, hucap⟩ := growToPad_ok_cap env _ d1 src.sz default
    (by show 0 < src.sz; omega) hd1
  have hcast : toInt32 (src.sz : Int) = (src.sz : Int) := toInt32_id _ (by omega) (by omega)
  rw [hcast] at hu
  obtain ⟨d2, hd2, _, hd2cap, _, _⟩ := copyLoop_full src d1 hsrc hd1inv hd1sz'
  refine ⟨_, u, d2, hclear, hu, ?_, by rw [hd2cap, hucap], by rw [hd2cap]; exact hd1cap,
    by rw [hd2cap]; omega⟩
  unfold copyTo
  rw [hclear]
  simp only [Outcome.bind]
  rw [growTo_eq_growToPad, hd1]
  simp only
  rw [hd2]
  rfl

/-- C20 (amended). For two buffers satisfying the invariants: after `moveTo`
the source has capacity 0 and the destination the source's former capacity;
after `swap` each has the other's former capacity; when the destination's
capacity (below `2^31`) covers the source's size, `copyTo` returns with the
source unchanged and the destination's capacity kept; when the destination's
capacity (at most `1431655764`) is smaller than the source's size (at most
`2^31 - 1`) and the allocator answers every request, `copyTo` returns with the
source unchanged and the destination's capacity equal to the one the planner
`capacity(sz)` computes for the cleared destination, which is at least the
source's size and greater than the destination's former capacity. -/
theorem transfer_capacities [Inhabited α] (env : Env) (a b : vec α) (ha : Inv a)
    (hb : Inv b) :
    (∃ a1 b1, moveTo a b = Outcome.ok (a1, b1) ∧ a1.cap = 0 ∧ b1.cap = a.cap) ∧
    ((swap a b).1.cap = b.cap ∧ (swap a b).2.cap = a.cap) ∧
    (a.sz ≤ b.cap → b.cap < 2147483648 →
      ∃ b1, copyTo env a b = Outcome.ok (a, b1) ∧ b1.cap = b.cap) ∧
    (env.allocOk → 32 ≤ env.fuel → b.cap < a.sz → a.sz ≤ 2147483647 → b.cap ≤ 1431655764 →
      ∃ c u b1, clear b false = Outcome.ok c ∧ capacity env c (a.sz : Int) = Outcome.ok u ∧
        copyTo env a b = Outcome.ok (a, b1) ∧ b1.cap = u.cap ∧ a.sz ≤ b1.cap ∧
        b.cap < b1.cap) := by
  refine ⟨?_, ⟨rfl, rfl⟩, ?_, ?_⟩
  · refine ⟨{ data := none, sz := 0, cap := 0 }, a, ?_, rfl, rfl⟩
    unfold moveTo
    rw [(clear_eq b hb).2]
    rfl
  · intro hfit hcap31
    obtain ⟨d, hd, hdcap, _⟩ := copyTo_within env a b ha hb hfit hcap31
    exact ⟨d, hd, hdcap⟩
  · intro halloc hfuel hsmall hn hC
    exact copyTo_grows env a b ha hb halloc hfuel hsmall hn hC

/-- C20 (amended), at concrete inputs: the source `[1,2,3]` of capacity 3 with
a destination `[9]` of capacity 4, which keeps its capacity, and with a
destination `[9]` of capacity 2, which `copyTo` grows to the capacity 4 that
`capacity(3)` computes. -/
theorem transfer_capacities_witness :
    Inv ({ data := some [some 1, some 2, some 3], sz := 3, cap := 3 } : vec Nat) ∧
    Inv ({ data := some [some 9, none, none, none], sz := 1, cap := 4 } : vec Nat) ∧
    Inv ({ data := some [some 9, none], sz := 1, cap := 2 } : vec Nat) ∧
    moveTo ({ data := some [some 1, some 2, some 3], sz := 3, cap := 3 } : vec Nat)
        { data := some [some 9, none, none, none], sz := 1, cap := 4 }
      = Outcome.ok ({ data := none, sz := 0, cap := 0 },
                    { data := some [some 1, some 2, some 3], sz := 3, cap := 3 }) ∧
    (∃ b1, copyTo stdEnv ({ data := some [some 1, some 2, some 3], sz := 3, cap := 3 } : vec Nat)
        { data := some [some 9, none, none, none], sz := 1, cap := 4 }
      = Outcome.ok ({ data := some [some 1, some 2, some 3], sz := 3, cap := 3 }, b1) ∧
      b1.cap = 4) ∧
    (∃ c u b1, clear ({ data := some [some 9, none], sz := 1, cap := 2 } : vec Nat) false
        = Outcome.ok c ∧
      capacity stdEnv c (3 : Nat) = Outcome.ok u ∧
      copyTo stdEnv ({ data := some [some 1, some 2, some 3], sz := 3, cap := 3 } : vec Nat)
        { data := some [some 9, none], sz := 1, cap := 2 }
      = Outcome.ok ({ data := some [some 1, some 2, some 3], sz := 3, cap := 3 }, b1) ∧
      b1.cap = u.cap ∧ 3 ≤ b1.cap ∧ 2 < b1.cap) :=
  ⟨by decide, by decide, by decide, by decide,
   (transfer_capacities stdEnv
      ({ data := some [some 1, some 2, some 3], sz := 3, cap := 3 } : vec Nat)
      { data := some [some 9, none, none, none], sz := 1, cap := 4 }
      (by decide) (by decide)).2.2.1 (by decide) (by decide),
   (transfer_capacities stdEnv
      ({ data := some [some 1, some 2, some 3], sz := 3, cap := 3 } : vec Nat)
      { data := some [some 9, none], sz := 1, cap := 2 }
      (by decide) (by decide)).2.2.2 (fun _ => rfl) (by decide) (by decide) (by decide)
      (by decide)⟩

/-- C20, as stated, fails for `copyTo`: copying the source `[1,2,3]` of capacity
3 into an empty destination calls `growTo(3)` on the destination, whose
capacity becomes 4, computed by the planner: neither 0 nor a capacity either
buffer had before. -/
theorem transfer_capacities_counterexample :
    Inv ({ data := some [some 1, some 2, some 3], sz := 3, cap := 3 } : vec Nat) ∧
    Inv (empty : vec Nat) ∧
    copyTo stdEnv ({ data := some [some 1, some 2, some 3], sz := 3, cap := 3 } : vec Nat) empty
      = Outcome.ok ({ data := some [some 1, some 2, some 3], sz := 3, cap := 3 },
                    { data := some [some 1, some 2, some 3, none], sz := 3, cap := 4 }) ∧
    ¬ ((4 : Nat) = 0 ∨ (4 : Nat) = 3 ∨ (4 : Nat) = (empty : vec Nat).cap) := by
  decide

/-! ## The invariants on every normal return -/

theorem Inv_SpecInv (v : vec α) (h : Inv v) : SpecInv v := by
  unfold SpecInv
  refine ⟨h.1, ?_⟩
  cases hd : v.data with
  | none => simp [(Inv_none v h hd).1]
  | some blk =>
    have := (Inv_some v blk h hd).2.1
    simp
    omega

theorem pow2Loop_lt (fuel new_size cap r : Nat) (hn : new_size < 4294967296)
    (h : pow2Loop fuel new_size cap = some r) : r < 4294967296 := by
  induction fuel generalizing new_size with
  | zero => simp [pow2Loop] at h
  | succ f ih =>
    unfold pow2Loop at h
    split_ifs at h with hlt
    · exact ih _ (Nat.mod_lt _ (by norm_num)) h
    · simp at h; omega

theorem dewaste_lt (new_size cap : Nat) (h : new_size < 4294967296) :
    dewaste new_size cap < 4294967296 := by
  unfold dewaste
  have : new_size * 2 % 4294967296 < 4294967296 := Nat.mod_lt _ (by norm_num)
  split_ifs <;> omega

/-- The shape of a normal return of `capacity`: either nothing changed, or the
size is kept, the capacity is a `uint32_t` value and the block is `NULL` or the
reallocated block with that many slots. -/
theorem capacity_ok_shape (env : Env) (v w : vec α) (M : Int)
    (h : capacity env v M = Outcome.ok w) :
    w = v ∨ (w.sz = v.sz ∧ w.cap ≤ 4294967295 ∧
      (w.data = none ∨ w.data = some (reallocBlock v.data w.cap))) := by
  unfold capacity at h
  by_cases h1 : toInt32 (v.cap : Int) ≥ M
  · rw [if_pos h1] at h
    exact Or.inl (Outcome.ok.inj h).symm
  · rw [if_neg h1] at h
    simp only at h
    by_cases h2 : growthAdd v.cap M > 4294967295 - v.cap
    · rw [if_pos h2] at h
      exact absurd h (by simp)
    · rw [if_neg h2] at h
      cases hp : pow2Loop env.fuel 2 ((v.cap + growthAdd v.cap M) % 4294967296) with
      | none => rw [hp] at h; simp at h
      | some r =>
        rw [hp] at h
        simp only at h
        have hr := dewaste_lt r ((v.cap + growthAdd v.cap M) % 4294967296)
          (pow2Loop_lt _ _ _ _ (by norm_num) hp)
        cases hh : env.heap (dewaste r ((v.cap + growthAdd v.cap M) % 4294967296)) with
        | block =>
          rw [hh] at h
          have hw := (Outcome.ok.inj h).symm
          subst hw
          exact Or.inr ⟨rfl, by show dewaste _ _ ≤ _; omega, Or.inr rfl⟩
        | nullENOMEM => rw [hh] at h; simp at h
        | nullOther =>
          rw [hh] at h
          have hw := (Outcome.ok.inj h).symm
          subst hw
          exact Or.inr ⟨rfl, by show dewaste _ _ ≤ _; omega, Or.inl rfl⟩

theorem realloc_keeps_live (v : vec α) (c : Nat) (hinv : Inv v) (hc : v.sz ≤ c) :
    (reallocBlock v.data c).take v.sz = elems v ∧
    ((reallocBlock v.data c).take v.sz).all Option.isSome = true := by
  cases hd : v.data with
  | none =>
    have := Inv_none v hinv hd
    simp [elems, hd, this.2]
  | some blk =>
    obtain ⟨hlen, _, hall⟩ := Inv_some v blk hinv hd
    have hle := hinv.1
    rw [reallocBlock_take blk c v.sz (by omega) hc]
    exact ⟨by simp [elems, hd], hall⟩

/-- After a normal return of `capacity` on a buffer satisfying the invariants,
a non-`NULL` block has `cap` slots and still holds the live elements. -/
theorem capacity_ok_block (env : Env) (v u : vec α) (M : Int) (hinv : Inv v)
    (h : capacity env v M = Outcome.ok u) :
    u.sz = v.sz ∧ u.cap ≤ 4294967295 ∧
    ∀ blk, u.data = some blk → blk.length = u.cap ∧
      (v.sz ≤ u.cap → (blk.take v.sz).all Option.isSome = true) := by
  rcases capacity_ok_shape env v u M h with hu | ⟨hsz, hcap, hdata⟩
  · subst hu
    refine ⟨rfl, hinv.2.1, ?_⟩
    intro blk hd
    obtain ⟨hlen, _, hall⟩ := Inv_some u blk hinv hd
    exact ⟨hlen, fun _ => hall⟩
  · refine ⟨hsz, hcap, ?_⟩
    intro blk hd
    rcases hdata with hn | hs
    · rw [hn] at hd; exact absurd hd (by simp)
    · rw [hs] at hd
      have hb : blk = reallocBlock v.data u.cap := (Option.some.inj hd).symm
      subst hb
      exact ⟨reallocBlock_length _ _, fun hle => (realloc_keeps_live v u.cap hinv hle).2⟩

theorem fillLoop_overrun2 (x : Option α) (k i : Nat) (v : vec α) (blk : Block α)
    (hd : v.data = some blk) (hk : 0 < k) (hlen : blk.length < i + k) :
    fillLoop x k i v = Outcome.undefined := by
  induction k generalizing i v blk with
  | zero => omega
  | succ k ih =>
    unfold fillLoop
    by_cases hlt : i < blk.length
    · rw [storeAt_ok v blk i x hd hlt]
      simp only [Outcome.bind]
      exact ih (i + 1) _ (blk.set i x) rfl (by omega) (by simp; omega)
    · unfold storeAt
      rw [hd]
      simp only
      rw [if_neg hlt]
      rfl

/-- A fill loop of at least one store that returns stayed inside the block. -/
theorem fillLoop_ok_inv (x : Option α) (k i : Nat) (v w : vec α) (hk : 0 < k)
    (h : fillLoop x k i v = Outcome.ok w) :
    ∃ blk, v.data = some blk ∧ i + k ≤ blk.length ∧
      w = { v with data := some (blk.take i ++ List.replicate k x ++ blk.drop (i + k)) } := by
  cases hd : v.data with
  | none =>
    obtain ⟨k', rfl⟩ : ∃ k', k = k' + 1 := ⟨k - 1, by omega⟩
    rw [fillLoop_null x k' i v hd] at h
    exact absurd h (by simp)
  | some blk =>
    by_cases hik : i + k ≤ blk.length
    · rw [fillLoop_ok x k i v blk hd hik] at h
      exact ⟨blk, rfl, hik, (Outcome.ok.inj h).symm⟩
    · rw [fillLoop_overrun2 x k i v blk hd hk (by omega)] at h
      exact absurd h (by simp)

theorem Inv_filled (blk : Block α) (sz n cap : Nat) (x : α) (h1 : sz ≤ n)
    (h2 : n ≤ blk.length) (hlen : blk.length = cap) (hcap : cap ≤ 4294967295) (hpos : 0 < cap)
    (hall : (blk.take sz).all Option.isSome = true) :
    Inv ({ data := some (blk.take sz ++ List.replicate (n - sz) (some x) ++ blk.drop n),
           sz := n, cap := cap } : vec α) := by
  apply Inv_mk _ _ _ (by omega) hcap hpos (by simp; omega)
  rw [List.take_append_of_le_length (by simp; omega)]
  rw [List.take_of_length_le (by simp; omega)]
  simp only [List.all_append, Bool.and_eq_true]
  exact ⟨hall, by simp⟩

/-- Every normal return of `growTo(n, pad)` on a buffer satisfying the
invariants satisfies them, with size `n` when the buffer grew. -/
theorem growToPad_Inv (env : Env) (v w : vec α) (n : Nat) (pad : α) (hinv : Inv v)
    (h : growToPad env v n pad = Outcome.ok w) :
    Inv w ∧ w.sz = (if v.sz ≥ n then v.sz else n) := by
  unfold growToPad at h
  by_cases hsz : v.sz ≥ n
  · rw [if_pos hsz] at h
    have hw := (Outcome.ok.inj h).symm
    subst hw
    exact ⟨hinv, by rw [if_pos hsz]⟩
  · rw [if_neg hsz] at h
    rw [if_neg hsz]
    cases hc : capacity env v (toInt32 n) with
    | ok u =>
      rw [hc] at h
      simp only [Outcome.bind] at h
      obtain ⟨husz, hucap, hublk⟩ := capacity_ok_block env v u (toInt32 n) hinv hc
      cases hf : fillLoop (some pad) (n - v.sz) v.sz u with
      | ok t =>
        rw [hf] at h
        obtain ⟨blk, hud, hfit, ht⟩ := fillLoop_ok_inv _ _ _ u t (by omega) hf
        obtain ⟨hlen, hall⟩ := hublk blk hud
        have hw := (Outcome.ok.inj h).symm
        subst hw
        subst ht
        have e : v.sz + (n - v.sz) = n := by omega
        rw [e] at hfit
        refine ⟨?_, rfl⟩
        show Inv ({ data := some (blk.take v.sz ++ List.replicate (n - v.sz) (some pad)
                              ++ blk.drop (v.sz + (n - v.sz))),
                    sz := n, cap := u.cap } : vec α)
        rw [e]
        exact Inv_filled blk v.sz n u.cap pad (by omega) hfit hlen hucap (by omega)
          (hall (by omega))
      | badAlloc t => rw [hf] at h; simp at h
      | undefined => rw [hf] at h; simp at h
      | timeout => rw [hf] at h; simp at h
    | badAlloc u => rw [hc] at h; simp [Outcome.bind] at h
    | undefined => rw [hc] at h; simp [Outcome.bind] at h
    | timeout => rw [hc] at h; simp [Outcome.bind] at h

/-- Every normal return of `push(elem)` on a buffer satisfying the invariants
satisfies them. -/
theorem push_Inv (env : Env) (v w : vec α) (x : α) (hinv : Inv v)
    (h : push env v x = Outcome.ok w) : Inv w := by
  unfold push at h
  have key : ∀ u : vec α, u.sz = v.sz → u.cap ≤ 4294967295 →
      (∀ blk, u.data = some blk → blk.length = u.cap ∧
        (v.sz ≤ u.cap → (blk.take v.sz).all Option.isSome = true)) →
      ((storeAt u u.sz (some x)).bind
        fun t => Outcome.ok { t with sz := toUInt32 ((t.sz : Int) + 1) }) = Outcome.ok w →
      Inv w := by
    intro u husz hucap hublk hst
    cases hs : storeAt u u.sz (some x) with
    | ok t =>
      obtain ⟨blk, hud, hlt, _⟩ := storeAt_inv u t u.sz (some x) hs
      obtain ⟨hlen, hall⟩ := hublk blk hud
      obtain ⟨w', hw', hw'inv, _⟩ := store_tail u blk x hud hlt hlen hucap
        (by rw [husz]; exact hall (by omega))
      rw [hw'] at hst
      have := Outcome.ok.inj hst
      subst this
      exact hw'inv
    | badAlloc t => rw [hs] at hst; simp [Outcome.bind] at hst
    | undefined => rw [hs] at hst; simp [Outcome.bind] at hst
    | timeout => rw [hs] at hst; simp [Outcome.bind] at hst
  by_cases hfull : v.sz = v.cap
  · rw [if_pos hfull] at h
    cases hc : capacity env v (toInt32 (toUInt32 ((v.sz : Int) + 1))) with
    | ok u =>
      rw [hc] at h
      obtain ⟨husz, hucap, hublk⟩ := capacity_ok_block env v u _ hinv hc
      exact key u husz hucap hublk h
    | badAlloc u => rw [hc] at h; simp [Outcome.bind] at h
    | undefined => rw [hc] at h; simp [Outcome.bind] at h
    | timeout => rw [hc] at h; simp [Outcome.bind] at h
  · rw [if_neg hfull] at h
    refine key v rfl hinv.2.1 ?_ h
    intro blk hd
    obtain ⟨hlen, _, hall⟩ := Inv_some v blk hinv hd
    exact ⟨hlen, fun _ => hall⟩

theorem pushDefault_eq_push [Inhabited α] (env : Env) (v : vec α) :
    pushDefault env v = push env v default := rfl

theorem push__Inv (v w : vec α) (x : α) (hinv : Inv v) (h : push_ v x = Outcome.ok w) :
    Inv w := by
  unfold push_ at h
  by_cases hlt : v.sz < v.cap
  · rw [if_pos hlt] at h
    obtain ⟨blk, hd⟩ := Inv_data_of_pos v hinv (by omega)
    obtain ⟨hlen, _, hall⟩ := Inv_some v blk hinv hd
    obtain ⟨w', hw', hw'inv, _⟩ := store_tail v blk x hd (by omega) hlen hinv.2.1 hall
    rw [hw'] at h
    have := Outcome.ok.inj h
    subst this
    exact hw'inv
  · rw [if_neg hlt] at h
    exact absurd h (by simp)

theorem pop_Inv (v w : vec α) (hinv : Inv v) (h : pop v = Outcome.ok w) : Inv w := by
  unfold pop at h
  by_cases hpos : v.sz > 0
  · rw [if_pos hpos] at h
    obtain ⟨blk, hd, hlt, hw⟩ := storeAt_inv _ w (v.sz - 1) none h
    have hd' : v.data = some blk := hd
    obtain ⟨hlen, hcpos, hall⟩ := Inv_some v blk hinv hd'
    have hle := hinv.1
    subst hw
    apply Inv_mk _ _ _ (by show v.sz - 1 ≤ v.cap; omega) hinv.2.1 hcpos
      (by rw [List.length_set]; exact hlen)
    show ((blk.set (v.sz - 1) none).take (v.sz - 1)).all Option.isSome = true
    rw [take_set_le blk (v.sz - 1) (v.sz - 1) none (le_refl _)]
    exact all_take_of_le blk _ _ (by omega) hall
  · rw [if_neg hpos] at h
    exact absurd h (by simp)

theorem shrink_Inv (v w : vec α) (k : Nat) (hinv : Inv v) (h : shrink v k = Outcome.ok w) :
    Inv w ∧ w.sz = v.sz - k ∧ w.cap = v.cap := by
  unfold shrink at h
  by_cases hk : k ≤ v.sz
  · rw [if_pos hk] at h
    have hle := hinv.1
    cases hd : v.data with
    | none =>
      obtain ⟨_, hs⟩ := Inv_none v hinv hd
      have hk0 : k = 0 := by omega
      subst hk0
      have := (Outcome.ok.inj h).symm
      subst this
      exact ⟨hinv, by omega, rfl⟩
    | some blk =>
      obtain ⟨hlen, hpos, hall⟩ := Inv_some v blk hinv hd
      rw [shrinkLoop_ok k v blk hd hk (by omega)] at h
      have := (Outcome.ok.inj h).symm
      subst this
      refine ⟨?_, rfl, rfl⟩
      apply Inv_mk _ _ _ (by omega) hinv.2.1 hpos (by simp; omega)
      rw [List.append_assoc, List.take_append_of_le_length (by simp; omega)]
      rw [List.take_of_length_le (by simp)]
      exact all_take_of_le blk _ _ (by omega) hall
  · rw [if_neg hk] at h
    exact absurd h (by simp)

theorem shrink__Inv (v w : vec α) (k : Nat) (hinv : Inv v) (h : shrink_ v k = Outcome.ok w) :
    Inv w := by
  unfold shrink_ at h
  by_cases hk : k ≤ v.sz
  · rw [if_pos hk] at h
    have := (Outcome.ok.inj h).symm
    subst this
    have hle := hinv.1
    cases hd : v.data with
    | none =>
      obtain ⟨hc, hs⟩ := Inv_none v hinv hd
      unfold Inv
      simp [hc, hs]
    | some blk =>
      obtain ⟨hlen, hpos, hall⟩ := Inv_some v blk hinv hd
      unfold Inv
      simp only [hd]
      exact ⟨by omega, hinv.2.1, hpos, hlen, all_take_of_le blk _ _ (by omega) hall⟩
  · rw [if_neg hk] at h
    exact absurd h (by simp)

theorem clear_Inv (v w : vec α) (dealloc : Bool) (hinv : Inv v)
    (h : clear v dealloc = Outcome.ok w) : Inv w := by
  cases dealloc with
  | true =>
    rw [(clear_eq v hinv).2] at h
    have := (Outcome.ok.inj h).symm
    subst this
    exact Inv_empty
  | false =>
    rw [(clear_eq v hinv).1] at h
    have := (Outcome.ok.inj h).symm
    subst this
    exact Inv_cleared v hinv

theorem resize_Inv [Inhabited α] (env : Env) (v w : vec α) (s : Nat) (hinv : Inv v)
    (h : resize env v s = Outcome.ok w) : Inv w := by
  unfold resize at h
  by_cases hs : s < v.sz
  · rw [if_pos hs] at h
    exact (shrink_Inv v w _ hinv h).1
  · rw [if_neg hs] at h
    exact (growToPad_Inv env v w s default hinv h).1

theorem insert_Inv [Inhabited α] (env : Env) (v w : vec α) (num : Nat) (hinv : Inv v)
    (h : insert env v num = Outcome.ok w) : Inv w :=
  (growToPad_Inv env v w _ default hinv h).1

theorem shrink_to_fit_Inv (env : Env) (v : vec α) (hinv : Inv v) :
    Inv (shrink_to_fit env v) := by
  unfold shrink_to_fit
  by_cases h0 : v.sz = 0
  · rw [if_pos h0, h0]
    exact Inv_empty
  · rw [if_neg h0]
    cases hh : env.heap v.sz with
    | block =>
      simp only
      have hle := hinv.1
      apply Inv_mk _ _ _ (le_refl _) (by have := hinv.2.1; omega) (by omega)
        (reallocBlock_length _ _)
      exact (realloc_keeps_live v v.sz hinv (le_refl _)).2
    | nullENOMEM => exact hinv
    | nullOther => exact hinv

theorem copyTo_Inv [Inhabited α] (env : Env) (src dest s d : vec α) (hsrc : Inv src)
    (hdest : Inv dest) (h : copyTo env src dest = Outcome.ok (s, d)) :
    s = src ∧ Inv d ∧ d.sz = src.sz := by
  unfold copyTo at h
  rw [(clear_eq dest hdest).1] at h
  simp only [Outcome.bind] at h
  cases hg : growTo env
      ({ data := dest.data.map (fun blk => List.replicate dest.sz none ++ blk.drop dest.sz),
         sz := 0, cap := dest.cap } : vec α) src.sz with
  | ok d1 =>
    rw [hg] at h
    simp only at h
    obtain ⟨hd1inv, hd1sz⟩ := growToPad_Inv env _ d1 src.sz default (Inv_cleared dest hdest) hg
    have hd1sz' : d1.sz = src.sz := by
      rw [hd1sz]
      simp only
      split_ifs with hc
      · omega
      · rfl
    obtain ⟨d2, hd2, hd2sz, _, _, hd2inv⟩ := copyLoop_full src d1 hsrc hd1inv hd1sz'
    rw [hd2] at h
    simp only [Outcome.map, Outcome.ok.injEq, Prod.mk.injEq] at h
    obtain ⟨hs, hd⟩ := h
    subst hs; subst hd
    exact ⟨rfl, hd2inv, hd2sz⟩
  | badAlloc t => rw [hg] at h; simp [Outcome.map] at h
  | undefined => rw [hg] at h; simp [Outcome.map] at h
  | timeout => rw [hg] at h; simp [Outcome.map] at h

theorem moveTo_Inv (a b s d : vec α) (ha : Inv a) (hb : Inv b)
    (h : moveTo a b = Outcome.ok (s, d)) : Inv s ∧ Inv d := by
  unfold moveTo at h
  rw [(clear_eq b hb).2] at h
  simp only [Outcome.map, Outcome.ok.injEq, Prod.mk.injEq] at h
  obtain ⟨hs, hd⟩ := h
  subst hs; subst hd
  exact ⟨Inv_empty, ha⟩

theorem swap_Inv (a b : vec α) (ha : Inv a) (hb : Inv b) :
    Inv (swap a b).1 ∧ Inv (swap a b).2 := ⟨hb, ha⟩

/-- On every normal return the invariants are kept: the fresh buffer satisfies
them, and every operation of the interface, run on a buffer satisfying them
(both buffers, for the transfer operations), returns buffers satisfying them. -/
theorem operations_preserve_Inv [Inhabited α] (env : Env) (v : vec α) (hinv : Inv v) :
    Inv (empty : vec α) ∧
    (∀ x w, push env v x = Outcome.ok w → Inv w) ∧
    (∀ w, pushDefault env v = Outcome.ok w → Inv w) ∧
    (∀ x w, push_ v x = Outcome.ok w → Inv w) ∧
    (∀ w, pop v = Outcome.ok w → Inv w) ∧
    (∀ n w, growTo env v n = Outcome.ok w → Inv w) ∧
    (∀ n pad w, growToPad env v n pad = Outcome.ok w → Inv w) ∧
    (∀ k w, shrink v k = Outcome.ok w → Inv w) ∧
    (∀ k w, shrink_ v k = Outcome.ok w → Inv w) ∧
    (∀ dealloc w, clear v dealloc = Outcome.ok w → Inv w) ∧
    (∀ s w, resize env v s = Outcome.ok w → Inv w) ∧
    (∀ num w, insert env v num = Outcome.ok w → Inv w) ∧
    Inv (shrink_to_fit env v) ∧
    (∀ b s d, Inv b → copyTo env v b = Outcome.ok (s, d) → Inv s ∧ Inv d) ∧
    (∀ b s d, Inv b → moveTo v b = Outcome.ok (s, d) → Inv s ∧ Inv d) ∧
    (∀ b, Inv b → Inv (swap v b).1 ∧ Inv (swap v b).2) := by
  refine ⟨Inv_empty, fun x w h => push_Inv env v w x hinv h,
    fun w h => push_Inv env v w default hinv h,
    fun x w h => push__Inv v w x hinv h, fun w h => pop_Inv v w hinv h,
    fun n w h => (growToPad_Inv env v w n default hinv h).1,
    fun n pad w h => (growToPad_Inv env v w n pad hinv h).1,
    fun k w h => (shrink_Inv v w k hinv h).1, fun k w h => shrink__Inv v w k hinv h,
    fun dealloc w h => clear_Inv v w dealloc hinv h, fun s w h => resize_Inv env v w s hinv h,
    fun num w h => insert_Inv env v w num hinv h, shrink_to_fit_Inv env v hinv, ?_,
    fun b s d hb h => moveTo_Inv v b s d hinv hb h, fun b hb => swap_Inv v b hinv hb⟩
  intro b s d hb h
  obtain ⟨hs, hd, _⟩ := copyTo_Inv env v b s d hinv hb h
  exact ⟨by rw [hs]; exact hinv, hd⟩

/-- C11, at failing inputs. (a) The full buffer `[1,2]` of capacity 2 satisfies
`0 ≤ size ≤ capacity` and `capacity == 0 ⇔ storage absent`; with an allocator
answering `NULL` and `ENOMEM`, `push(3)` throws and leaves `cap = 4` with
`data = NULL`, which violates the second invariant. (b) On the one-element
buffer `[7]` of capacity 2, `resize(2147483648)` and `insert(2147483647)` call
`growTo(2147483648)`: `capacity` returns without growing and the construction
loop leaves the 2-slot block. -/
theorem invariant_not_preserved (env : Env) :
    SpecInv ({ data := some [some 1, some 2], sz := 2, cap := 2 } : vec Nat) ∧
    push failEnv ({ data := some [some 1, some 2], sz := 2, cap := 2 } : vec Nat) 3
      = Outcome.badAlloc { data := none, sz := 2, cap := 4 } ∧
    ¬ SpecInv ({ data := none, sz := 2, cap := 4 } : vec Nat) ∧
    SpecInv ({ data := some [some 7, none], sz := 1, cap := 2 } : vec Nat) ∧
    resize env ({ data := some [some 7, none], sz := 1, cap := 2 } : vec Nat) 2147483648
      = Outcome.undefined ∧
    insert env ({ data := some [some 7, none], sz := 1, cap := 2 } : vec Nat) 2147483647
      = Outcome.undefined :=
  ⟨by decide, by decide, by decide, by decide, rfl, rfl⟩

end vec
end CMSat
